import Mathlib

/-!
Shallow embedding of the HyperCrawl crawler (src/main.rs, src/model/link.rs,
src/image_utils.rs) and proofs about its specification claims.

Rust `HashMap`s are embedded as insertion-ordered association lists, `HashSet`s
of ids as `Finset Nat`, and `Uuid::new_v4` freshness as a monotone counter
(`nextId`), so that fresh ids are distinct, matching the uniqueness the code
relies on.  Fallible Rust functions returning `anyhow::Result` are embedded as
`Except String`.
-/

namespace HyperCrawl

/-- Modelled from the spec: the `Image` value from `src/model/mod.rs`, a file
absent from `src/` (only its users are present).  Per the spec an Image is
`{ source_url: string, alt_text: optional string }`; the field holding the
source URL is named `link` and the alt text `alt`, as the uses in
`LinkGraph::update` (`img.link`) and `image_utils.rs` (`image.link`,
`"alt"`) show. -/
structure Image where
  link : String
  alt : Option String
deriving DecidableEq, Repr

/-- `Link` from src/model/link.rs: one node of the link graph. -/
structure Link where
  id : Nat
  url : String
  parents : Finset Nat
  children : Finset Nat
  images : List Image
  titles : List String
deriving DecidableEq

/-- Association-list lookup, embedding `HashMap::get`. -/
def alookup {α β : Type} [DecidableEq α] : List (α × β) → α → Option β
  | [], _ => none
  | (k2, v) :: rest, k => if k2 = k then some v else alookup rest k

/-- Association-list insert, embedding `HashMap::insert`'s replace-or-add
semantics (iteration order of a `HashMap` is arbitrary; we fix a stable
insertion order as its model). -/
def ainsert {α β : Type} [DecidableEq α] (l : List (α × β)) (k : α) (v : β) :
    List (α × β) :=
  if (alookup l k).isSome then
    l.map (fun p => if p.1 = k then (k, v) else p)
  else
    l ++ [(k, v)]

/-- In-place modification of the value at a key, embedding mutation through
`HashMap::get_mut` (no-op when the key is absent). -/
def amodify {α β : Type} [DecidableEq α] (l : List (α × β)) (k : α) (f : β → β) :
    List (α × β) :=
  l.map (fun p => if p.1 = k then (p.1, f p.2) else p)

/-- Keys of an association list. -/
def akeys {α β : Type} (l : List (α × β)) : List α := l.map Prod.fst

/-- `LinkGraph` from src/model/link.rs: `links: HashMap<LinkId, Link>`,
`link_ids: HashMap<String, LinkId>`; `nextId` models the fresh-id supply of
`Uuid::new_v4`. -/
structure LinkGraph where
  links : List (Nat × Link)
  linkIds : List (String × Nat)
  nextId : Nat
deriving DecidableEq

/-- The empty graph (`LinkGraph::default()`). -/
def LinkGraph.empty : LinkGraph := ⟨[], [], 0⟩

/-- `Link::new` from src/model/link.rs, with the fresh id made explicit. -/
def Link.mkNew (newId : Nat) (url : String) : Link :=
  ⟨newId, url, ∅, ∅, [], []⟩

/-- `LinkGraph::force_get_link_id` from src/model/link.rs: retrieve the id of
an already-registered `url`, or create and insert a fresh `Link` for it; the
Rust function returns `&mut Link`, embedded here as the new graph together
with the key the reference points at. -/
def LinkGraph.forceGetLinkId (g : LinkGraph) (url : String) :
    Except String (LinkGraph × Nat) :=
  match alookup g.linkIds url with
  | some linkId =>
    let g1 : LinkGraph := { g with linkIds := ainsert g.linkIds url linkId }
    match alookup g1.links linkId with
    | some _ => .ok (g1, linkId)
    | none => .error "failed to get link"
  | none =>
    let newLink := Link.mkNew g.nextId url
    match alookup g.links g.nextId with
    | some _ => .error "link already exists"
    | none =>
      let g1 : LinkGraph :=
        { links := g.links ++ [(g.nextId, newLink)]
          linkIds := ainsert g.linkIds url g.nextId
          nextId := g.nextId + 1 }
      match alookup g1.links g.nextId with
      | some _ => .ok (g1, g.nextId)
      | none => .error "failed to get link"

/-- The push loops of `LinkGraph::update` (src/model/link.rs lines 89-103):
walk the input, skip an element whose key is in the local `seen` set, else
record the key and keep the element.  Generic over the key (`img.link` for
images, the title itself for titles). -/
def pushDedup {α κ : Type} [DecidableEq κ] (key : α → κ) :
    List α → List κ → List α
  | [], _ => []
  | x :: rest, seen =>
    if key x ∈ seen then pushDedup key rest seen
    else x :: pushDedup key rest (key x :: seen)

/-- The in-place mutation `LinkGraph::update` performs on the fetched URL's
own link (src/model/link.rs lines 83-103): record the parent id when the
parent is registered, extend children with the ids of already-registered
child URLs, and append this call's deduplicated images and titles.  The
lookups read the graph as it was at the start of the call (`g`), exactly as
the Rust code computes `maybe_parent` and `valid_children` before
`force_get_link_id`. -/
def updMut (g : LinkGraph) (parent : String) (children : List String)
    (images : List Image) (titles : List String) : Link → Link := fun link =>
  let link := match alookup g.linkIds parent with
    | some parentId => { link with parents := insert parentId link.parents }
    | none => link
  { link with
    children := link.children
      ∪ (children.filterMap (fun c => alookup g.linkIds c)).toFinset
    images := link.images ++ pushDedup Image.link images []
    titles := link.titles ++ pushDedup id titles [] }

/-- The in-place mutation on the parent's link (src/model/link.rs lines
107-113): its children set gains this link's id. -/
def parentMut (thisLinkId : Nat) : Link → Link := fun pl =>
  { pl with children := insert thisLinkId pl.children }

/-- `LinkGraph::update` from src/model/link.rs: register `url` if new, record
the parent edge when the parent is already registered, extend children with
the already-registered entries of `children`, and append this call's
deduplicated images and titles. -/
def LinkGraph.update (g : LinkGraph) (url parent : String)
    (children : List String) (images : List Image) (titles : List String) :
    Except String LinkGraph :=
  match g.forceGetLinkId url with
  | .error e => .error e
  | .ok (g1, key) =>
    let g2 : LinkGraph :=
      { g1 with links := amodify g1.links key (updMut g parent children images titles) }
    match alookup g2.links key with
    | none => .error "failed to get link"
    | some link2 =>
      match alookup g.linkIds parent with
      | some parentId =>
        match alookup g2.links parentId with
        | none => .error "could not find parent link"
        | some _ =>
          .ok { g2 with links := amodify g2.links parentId (parentMut link2.id) }
      | none => .ok g2

/-- `LinkGraph::len` from src/model/link.rs. -/
def LinkGraph.len (g : LinkGraph) : Nat := g.links.length

/-- `LinkGraph::link_visited` from src/model/link.rs. -/
def LinkGraph.link_visited (g : LinkGraph) (url : String) : Bool :=
  (alookup g.linkIds url).isSome

/-! ## URL model

The crawler uses the external `url` crate.  We embed the slice of its
behaviour the crawl loop depends on: scheme extraction, the authority host
(with `Url::domain()` returning none for purely numeric IPv4-style hosts),
and rendering after `set_fragment(None)` (the fragment part is dropped). -/

/-- Result of `Url::parse` followed by `set_fragment(None)`: the scheme, the
host of the authority when one is present, and the fragment-free rendering
used by the crawler as the normalized URL. -/
structure UrlM where
  scheme : String
  hostStr : Option String
  normalized : String
deriving DecidableEq

/-- Split a character list at the first occurrence of `c` (none if absent). -/
def splitFirst (c : Char) : List Char → Option (List Char × List Char)
  | [] => none
  | x :: rest =>
    if x = c then some ([], rest)
    else (splitFirst c rest).map (fun p => (x :: p.1, p.2))

/-- Split a character list on every occurrence of `c` (the model of Rust's
`split`, at the character level). -/
def splitOnChar (c : Char) : List Char → List (List Char)
  | [] => [[]]
  | x :: rest =>
    if x = c then [] :: splitOnChar c rest
    else
      match splitOnChar c rest with
      | [] => [[x]]
      | h :: t => (x :: h) :: t

/-- Split an absolute URL string at its first colon into scheme and rest. -/
def splitScheme (s : String) : Option (List Char × List Char) :=
  splitFirst ':' s.data

/-- Drop the fragment: keep the part before the first `#`. -/
def stripFragment (l : List Char) : List Char :=
  l.takeWhile (fun c => c ≠ '#')

/-- The authority host of the fragment-free scheme-relative part, when the
URL has an authority (`//...`). -/
def hostOf : List Char → Option (List Char)
  | '/' :: '/' :: r => some (r.takeWhile (fun c => c ≠ '/' ∧ c ≠ '?' ∧ c ≠ '#'))
  | _ => none

/-- Model of `Url::parse` composed with `set_fragment(None)`, for the URL
shapes the crawler handles: an alphabetic scheme before the first colon, an
optional `//host` authority, and an optional `#fragment` which is dropped. -/
def parseUrl (s : String) : Option UrlM :=
  match splitScheme s with
  | none => none
  | some (schemeChars, restChars) =>
    if schemeChars = [] ∨ ¬ (schemeChars.all Char.isAlpha) then none
    else
      let noFrag := stripFragment restChars
      some ⟨String.mk schemeChars, (hostOf noFrag).map String.mk,
            String.mk (schemeChars ++ [':'] ++ noFrag)⟩

/-- `Url::domain()`: the host, unless it is empty or an IPv4-style numeric
address (for which the crate returns `None`). -/
def UrlM.domain (u : UrlM) : Option String :=
  match u.hostStr with
  | none => none
  | some h =>
    if h.data = [] ∨ h.data.all (fun c => c.isDigit || c == '.') then none
    else some h

/-- `is_same_domain` from src/main.rs lines 76-78. -/
def is_same_domain (url_domain base_domain : String) : Bool :=
  url_domain == base_domain
    || List.isSuffixOf ("." ++ base_domain).data url_domain.data

/-- Modelled from the spec: the frontier entry `LinkPath { parent, child }`
declared in `src/crawler.rs`, a file absent from `src/` (its uses in
src/main.rs and the spec fix its two string fields; `Default` gives empty
strings). -/
structure LinkPath where
  parent : String
  child : String
deriving DecidableEq

/-- The outcome of the validate/scope/dedup/budget section of one `crawl`
loop iteration (src/main.rs lines 105-141) on a dequeued entry:
`skipEntry` is a `continue` (the worker skips the entry and loops),
`breakBudget` the `break` at the second budget check, and `proceed` the
fall through to the counter increment and the fetch. -/
inductive IterAction where
  | skipEntry
  | breakBudget
  | proceed (normalized : String) (parsed : UrlM)
deriving DecidableEq

/-- The validate/scope/dedup/budget section of one `crawl` loop iteration
(src/main.rs lines 105-141), given the dequeued entry, the graph, and the
visited-counter value observed at the budget check. -/
def processEntry (graph : LinkGraph) (visited maxLinks : Nat)
    (baseDomain : String) (lp : LinkPath) : IterAction :=
  if lp.child = "" then .skipEntry
  else match parseUrl lp.child with
  | none => .skipEntry
  | some u =>
    if ¬ (u.scheme = "http" ∨ u.scheme = "https") then .skipEntry
    else if (u.domain.map (fun d => !is_same_domain d baseDomain)).getD false then
      .skipEntry
    else if graph.link_visited u.normalized then .skipEntry
    else if maxLinks ≤ visited then .breakBudget
    else .proceed u.normalized u

/-- The visited counter after the action: only `proceed` is followed by the
`fetch_add(1)` of src/main.rs line 141. -/
def IterAction.counterAfter (a : IterAction) (visited : Nat) : Nat :=
  match a with
  | .proceed _ _ => visited + 1
  | _ => visited

/-- Whether the action leads to a page fetch (`scrape_page`): only `proceed`. -/
def IterAction.doesFetch (a : IterAction) : Bool :=
  match a with
  | .proceed _ _ => true
  | _ => false

/-- The per-link check of the fold-results loop (src/main.rs lines 156-167):
an extracted link may be enqueued only when it parses, has an http or https
scheme, has a domain inside the crawl scope, and its normalized form is not
yet registered in the graph. -/
def shouldAdd (graph : LinkGraph) (baseDomain : String) (link : String) : Bool :=
  match parseUrl link with
  | none => false
  | some u =>
    if ¬ (u.scheme = "http" ∨ u.scheme = "https") then false
    else
      (u.domain.map (fun d => is_same_domain d baseDomain)).getD false
        && !graph.link_visited u.normalized

/-- The normalized form of an extracted link (the re-parse at src/main.rs
lines 170-174, used to build the enqueued entry). -/
def normalizedOf (link : String) : String :=
  match parseUrl link with
  | some u => u.normalized
  | none => ""

/-- The fold-results loop of `crawl` (src/main.rs lines 151-178): walk the
extracted links, stop as soon as the visited counter has reached the budget,
and push a frontier entry for each link that passes `shouldAdd`.  `visited`
is the counter value observed at the loop's budget checks. -/
def foldLinks (graph : LinkGraph) (baseDomain : String) (visited maxLinks : Nat)
    (parentNorm : String) (links : List String) (queue : List LinkPath) :
    List LinkPath :=
  match links with
  | [] => queue
  | l :: rest =>
    if maxLinks ≤ visited then queue
    else
      let q2 := if shouldAdd graph baseDomain l
        then queue ++ [⟨parentNorm, normalizedOf l⟩] else queue
      foldLinks graph baseDomain visited maxLinks parentNorm rest q2

/-- Modelled from the spec: the shared `CrawlerState` declared in
`src/crawler.rs`, a file absent from `src/`; its fields (frontier queue,
link graph, max budget, base domain, visited counter) are fixed by the spec
and the uses in src/main.rs. -/
structure CrawlerStateM where
  linkQueue : List LinkPath
  linkGraph : LinkGraph
  maxLinks : Nat
  baseDomain : String
  visitedCount : Nat
deriving DecidableEq

/-- `new_crawler_state` from src/main.rs lines 200-218: derive the base
domain from the starting URL, falling back to "localhost" when the URL does
not parse or has no domain, and seed the frontier with the single entry whose
child is the starting URL (and whose parent is `Default`, the empty string). -/
def new_crawler_state (startingUrl : String) (maxLinks : Nat) : CrawlerStateM :=
  let baseDomain :=
    match parseUrl startingUrl with
    | some u =>
      match u.domain with
      | some d => d
      | none => "localhost"
    | none => "localhost"
  { linkQueue := [⟨"", startingUrl⟩]
    linkGraph := LinkGraph.empty
    maxLinks := maxLinks
    baseDomain := baseDomain
    visitedCount := 0 }

/-! ## Image pipeline (src/image_utils.rs) -/

/-- `convert_links_to_images` from src/image_utils.rs lines 39-45: iterate
the graph's links, flatten out every `Image` occurrence, and key each by a
fresh id (`Uuid::new_v4`; freshness modelled by the position index, so ids
are distinct as the code relies on); with distinct keys the `collect` into a
`HashMap` keeps every entry. -/
def convert_links_to_images (g : LinkGraph) : List (Nat × Image) :=
  ((g.links.map Prod.snd).flatMap Link.images).enum

/-- `MAX_RETRIES` from src/image_utils.rs line 48. -/
def MAX_RETRIES : Nat := 3

/-- The retry loop of `download_image` (src/image_utils.rs lines 51-63),
iterating over the attempt numbers of `0..MAX_RETRIES` in order.
`res i = none` means the `try_download_image` call of attempt `i` (0-based)
succeeds, `res i = some e` that it fails with error `e`.  Returns the final
result (`none` = success), the number of attempts made, and the list of
sleep durations (in ms) taken between attempts, in order. -/
def downloadLoop (res : Nat → Option String) :
    List Nat → Option String → List Nat → Option String × Nat × List Nat
  | [], lastError, delays =>
    (some (lastError.getD "download failed after 3 attempts"), MAX_RETRIES, delays)
  | attempt :: rest, lastError, delays =>
    match res attempt with
    | none => (none, attempt + 1, delays)
    | some e =>
      downloadLoop res rest (some e)
        (if attempt < MAX_RETRIES - 1 then delays ++ [500 * (attempt + 1)] else delays)

/-- `download_image` from src/image_utils.rs lines 47-64, abstracted over the
outcome `res` of each `try_download_image` attempt. -/
def download_image (res : Nat → Option String) : Option String × Nat × List Nat :=
  downloadLoop res (List.range MAX_RETRIES) none []

/-- The content-type → extension table of `get_extension`
(src/image_utils.rs lines 81-90). -/
def contentTypeExt (ct : String) : Option String :=
  match ct with
  | "image/gif" => some "gif"
  | "image/jpeg" => some "jpg"
  | "image/jpg" => some "jpg"
  | "image/png" => some "png"
  | "image/svg+xml" => some "svg"
  | "image/webp" => some "webp"
  | "image/tiff" => some "tif"
  | "image/tif" => some "tif"
  | "image/avif" => some "avif"
  | "image/bmp" => some "bmp"
  | _ => none

/-- The URL-path fallback of `get_extension` (src/image_utils.rs lines
96-107): the suffix of the last path segment after its final dot (`rfind`),
accepted only if non-empty and at most 5 characters, lower-cased. -/
def extFromLastSegment (last : String) : Option String :=
  let parts := splitOnChar '.' last.data
  if parts.length ≤ 1 then none
  else
    match parts.getLast? with
    | none => none
    | some ext =>
      if ext ≠ [] ∧ ext.length ≤ 5 then some (String.mk (ext.map Char.toLower))
      else none

/-- The fallback branch of `get_extension`, given the response URL's last
path segment when the URL has path segments. -/
def fallbackExt (lastSeg : Option String) : Option String :=
  match lastSeg with
  | some l => extFromLastSegment l
  | none => none

/-- `get_extension` from src/image_utils.rs lines 79-110, abstracted over
the response's content-type header and the response URL's last path
segment; `none` is the `UnknownExtension` bail. -/
def get_extension (contentType : Option String) (lastSeg : Option String) :
    Option String :=
  match contentType with
  | some ct =>
    match contentTypeExt ct with
    | some e => some e
    | none => fallbackExt lastSeg
  | none => fallbackExt lastSeg

/-! ## The visited-counter protocol of the worker pool (src/main.rs `crawl`)

Each worker loops: a budget check (an atomic load, src/main.rs lines 84-86
and 137-139) that terminates the worker when `visited_count >= max_links`,
and — when the last check observed `visited_count < max_links` — a separate
`fetch_add(1)` (line 141) followed by the page fetch.  The load and the
`fetch_add` are distinct atomic operations, so steps of other workers may
interleave between them; the transition system below models exactly that. -/

/-- A worker's position in its loop: `wtop` anywhere before the final budget
check (all those positions are counter-neutral), `wpassed` between a budget
check that observed `counter < max_links` and its `fetch_add`, `wstopped`
after a `break`. -/
inductive WState where
  | wtop
  | wpassed
  | wstopped
deriving DecidableEq

/-- Shared state of the worker pool: the atomic visited counter, each
worker's loop position, and the total number of page fetches performed. -/
structure PoolState where
  counter : Nat
  workers : List WState
  fetches : Nat
deriving DecidableEq

/-- Number of workers sitting between a successful budget check and their
`fetch_add`. -/
def countPassed : List WState → Nat
  | [] => 0
  | .wpassed :: r => countPassed r + 1
  | .wtop :: r => countPassed r
  | .wstopped :: r => countPassed r

/-- Contribution of one worker state to `countPassed`. -/
def countPassedOne : WState → Nat
  | .wpassed => 1
  | .wtop => 0
  | .wstopped => 0

/-- One interleaved step of the worker pool: a budget check passing or
failing, a counter-neutral `continue` path, the queue-starvation exit, or a
`fetch_add` followed by the fetch. -/
inductive PoolStep (maxLinks : Nat) : PoolState → PoolState → Prop where
  | checkPass (s : PoolState) (i : Nat) (h : s.workers[i]? = some .wtop)
      (hc : s.counter < maxLinks) :
      PoolStep maxLinks s ⟨s.counter, s.workers.set i .wpassed, s.fetches⟩
  | checkFail (s : PoolState) (i : Nat) (h : s.workers[i]? = some .wtop)
      (hc : maxLinks ≤ s.counter) :
      PoolStep maxLinks s ⟨s.counter, s.workers.set i .wstopped, s.fetches⟩
  | exitStarved (s : PoolState) (i : Nat) (h : s.workers[i]? = some .wtop) :
      PoolStep maxLinks s ⟨s.counter, s.workers.set i .wstopped, s.fetches⟩
  | skipIter (s : PoolState) (i : Nat) (h : s.workers[i]? = some .wtop) :
      PoolStep maxLinks s s
  | fetchInc (s : PoolState) (i : Nat) (h : s.workers[i]? = some .wpassed) :
      PoolStep maxLinks s ⟨s.counter + 1, s.workers.set i .wtop, s.fetches + 1⟩

/-- Reflexive-transitive closure of `PoolStep`. -/
inductive PoolSteps (maxLinks : Nat) : PoolState → PoolState → Prop where
  | refl (s : PoolState) : PoolSteps maxLinks s s
  | step {s t u : PoolState} : PoolSteps maxLinks s t → PoolStep maxLinks t u →
      PoolSteps maxLinks s u

/-- Initial pool state: counter 0, every worker at the top of its loop, no
fetches yet. -/
def initPool (n : Nat) : PoolState := ⟨0, List.replicate n .wtop, 0⟩

/-- States reachable from the initial pool state. -/
def PoolReach (maxLinks n : Nat) (s : PoolState) : Prop :=
  PoolSteps maxLinks (initPool n) s

/-! ## Derived accessors and auxiliary definitions used by the theorems -/

/-- The `Link` registered for a normalized URL, if any. -/
def linkOfUrl (g : LinkGraph) (url : String) : Option Link :=
  match alookup g.linkIds url with
  | some i => alookup g.links i
  | none => none

/-- The images list of the Link registered for `url` (empty if none). -/
def imagesOfUrl (g : LinkGraph) (url : String) : List Image :=
  ((linkOfUrl g url).map Link.images).getD []

/-- The titles list of the Link registered for `url` (empty if none). -/
def titlesOfUrl (g : LinkGraph) (url : String) : List String :=
  ((linkOfUrl g url).map Link.titles).getD []

/-- The children id set of the Link registered for `url` (empty if none). -/
def childrenOfUrl (g : LinkGraph) (url : String) : Finset Nat :=
  ((linkOfUrl g url).map Link.children).getD ∅

/-- The parents id set of the Link registered for `url` (empty if none). -/
def parentsOfUrl (g : LinkGraph) (url : String) : Finset Nat :=
  ((linkOfUrl g url).map Link.parents).getD ∅

/-- The id registered for a normalized URL, if any. -/
def idOfUrl (g : LinkGraph) (url : String) : Option Nat :=
  alookup g.linkIds url

/-- The children id set of the Link stored at id `i` (empty if none). -/
def childrenOfId (g : LinkGraph) (i : Nat) : Finset Nat :=
  ((alookup g.links i).map Link.children).getD ∅

/-- Structural well-formedness of the graph representation, true of every
graph the program builds (established below for `LinkGraph.empty` and
preserved by `update`): every registered id resolves to a stored link, every
stored id is below the fresh-id counter, registered URLs are distinct, and
the two maps have equal size. -/
def WfGraph (g : LinkGraph) : Prop :=
  (∀ p ∈ g.linkIds, (alookup g.links p.2).isSome = true) ∧
  (∀ q ∈ g.links, q.1 < g.nextId) ∧
  (akeys g.linkIds).Nodup ∧
  g.links.length = g.linkIds.length ∧
  (∀ q ∈ g.links, q.2.id = q.1)

/-- One recorded call to `LinkGraph::update`. -/
structure UpdateCall where
  url : String
  parent : String
  children : List String
  images : List Image
  titles : List String

/-- Apply a sequence of `update` calls, keeping the previous graph when a
call fails (the crawler logs and continues on an update error). -/
def applyUpdates (g : LinkGraph) : List UpdateCall → LinkGraph
  | [] => g
  | c :: rest =>
    applyUpdates
      (match g.update c.url c.parent c.children c.images c.titles with
       | .ok g2 => g2
       | .error _ => g) rest

/-- First-seen deduplication, written from the spec's words: walk the list
and keep an element exactly when no already-kept element has the same key,
preserving order.  Used to compare the source's push loops against the
spec's description. -/
def specFirstSeen {α κ : Type} [DecidableEq κ] (key : α → κ) (l : List α) :
    List α :=
  l.foldl (fun acc x => if ∃ y ∈ acc, key y = key x then acc else acc ++ [x]) []

/-- Concrete image used by the C1 counterexample. -/
def cImg : Image := ⟨"http://a/i.png", none⟩

/-- Graph after one `update` of URL "u" carrying `cImg`. -/
def c1graph1 : LinkGraph :=
  (LinkGraph.empty.update "u" "" [] [cImg] []).toOption.getD LinkGraph.empty

/-- Graph after a second identical `update` of URL "u" carrying `cImg`. -/
def c1graph2 : LinkGraph :=
  (c1graph1.update "u" "" [] [cImg] []).toOption.getD LinkGraph.empty

/-- Concrete graph with a registered parent "p" and one registered child
"c1", for the edge-recording witness. -/
def c5g : LinkGraph :=
  ⟨[(0, ⟨0, "p", ∅, ∅, [], []⟩), (1, ⟨1, "c1", ∅, ∅, [], []⟩)],
   [("p", 0), ("c1", 1)], 2⟩

/-- `c5g` after `update "u" "p" ["c1", "c2"] [] []`: the unregistered child
"c2" is dropped, the registered child "c1" and the symmetric parent edge are
recorded. -/
def c5g2 : LinkGraph :=
  (c5g.update "u" "p" ["c1", "c2"] [] []).toOption.getD LinkGraph.empty

/-- Concrete two-page graph for the C9 witness: the same image source URL
appears on both pages. -/
def c9graph : LinkGraph :=
  ⟨[(0, ⟨0, "http://h/p1", ∅, ∅, [⟨"http://h/i.png", none⟩], []⟩),
    (1, ⟨1, "http://h/p2", ∅, ∅, [⟨"http://h/i.png", some "x"⟩], []⟩)],
   [("http://h/p1", 0), ("http://h/p2", 1)], 2⟩

/-! ## Infrastructure lemmas -/

theorem alookup_append {α β : Type} [DecidableEq α] (l1 l2 : List (α × β)) (k : α) :
    alookup (l1 ++ l2) k =
      match alookup l1 k with
      | some v => some v
      | none => alookup l2 k := by
  induction l1 with
  | nil => simp [alookup]
  | cons p rest ih =>
    obtain ⟨k1, v1⟩ := p
    by_cases h : k1 = k <;> simp [alookup, h, ih]


theorem alookup_eq_none_iff {α β : Type} [DecidableEq α] (l : List (α × β)) (k : α) :
    alookup l k = none ↔ k ∉ akeys l := by
  induction l with
  | nil => simp [alookup, akeys]
  | cons p rest ih =>
    obtain ⟨k1, v1⟩ := p
    by_cases h : k1 = k
    · subst h
      simp [alookup, akeys]
    · simp [alookup, akeys, h, Ne.symm h, ih]

theorem alookup_mem {α β : Type} [DecidableEq α] {l : List (α × β)} {k : α} {v : β}
    (h : alookup l k = some v) : (k, v) ∈ l := by
  induction l with
  | nil => simp [alookup] at h
  | cons p rest ih =>
    obtain ⟨k1, v1⟩ := p
    by_cases hk : k1 = k
    · subst hk
      simp [alookup] at h
      subst h
      exact List.mem_cons_self _ _
    · simp [alookup, hk] at h
      exact List.mem_cons_of_mem _ (ih h)

theorem alookup_bound_none {α β : Type} [DecidableEq α] {l : List (α × β)} {k : α}
    (h : ∀ q ∈ l, q.1 ≠ k) : alookup l k = none := by
  induction l with
  | nil => rfl
  | cons p rest ih =>
    obtain ⟨k1, v1⟩ := p
    have h1 : k1 ≠ k := h (k1, v1) (List.mem_cons_self _ _)
    simp only [alookup, h1, if_false, if_neg]
    exact ih fun q hq => h q (List.mem_cons_of_mem _ hq)

theorem map_id_on {α : Type} {f : α → α} {l : List α} (h : ∀ x ∈ l, f x = x) :
    l.map f = l := by
  induction l with
  | nil => rfl
  | cons x rest ih =>
    simp [h x (List.mem_cons_self _ _), ih fun y hy => h y (List.mem_cons_of_mem _ hy)]

theorem akeys_map_keypreserving {α β : Type} {g : α × β → α × β} {l : List (α × β)}
    (hg : ∀ p, (g p).1 = p.1) : akeys (l.map g) = akeys l := by
  induction l with
  | nil => rfl
  | cons p rest ih => simp_all [akeys]

theorem amodify_cons {α β : Type} [DecidableEq α] (k1 : α) (v1 : β)
    (rest : List (α × β)) (k : α) (f : β → β) :
    amodify ((k1, v1) :: rest) k f =
      (if k1 = k then (k1, f v1) else (k1, v1)) :: amodify rest k f := by
  by_cases h : k1 = k <;> simp [amodify, h]

theorem alookup_amodify {α β : Type} [DecidableEq α] (l : List (α × β)) (k : α)
    (f : β → β) (k2 : α) :
    alookup (amodify l k f) k2 =
      if k2 = k then (alookup l k2).map f else alookup l k2 := by
  induction l with
  | nil => by_cases h : k2 = k <;> simp [amodify, alookup, h]
  | cons p rest ih =>
    obtain ⟨k1, v1⟩ := p
    rw [amodify_cons]
    by_cases h1 : k1 = k
    · rw [if_pos h1]
      by_cases h2 : k1 = k2
      · have e1 : alookup ((k1, f v1) :: amodify rest k f) k2 = some (f v1) := by
          simp [alookup, h2]
        have e2 : alookup ((k1, v1) :: rest) k2 = some v1 := by simp [alookup, h2]
        rw [e1, if_pos (h2.symm.trans h1), e2]
        rfl
      · have h2s : ¬ k2 = k := fun he => h2 (h1.trans he.symm)
        have e1 : alookup ((k1, f v1) :: amodify rest k f) k2
            = alookup (amodify rest k f) k2 := by simp [alookup, h2]
        have e2 : alookup ((k1, v1) :: rest) k2 = alookup rest k2 := by
          simp [alookup, h2]
        rw [e1, ih, if_neg h2s, if_neg h2s, e2]
    · rw [if_neg h1]
      by_cases h2 : k1 = k2
      · have h2s : ¬ k2 = k := fun he => h1 (h2.trans he)
        have e1 : alookup ((k1, v1) :: amodify rest k f) k2 = some v1 := by
          simp [alookup, h2]
        have e2 : alookup ((k1, v1) :: rest) k2 = some v1 := by simp [alookup, h2]
        rw [e1, if_neg h2s, e2]
      · have e1 : alookup ((k1, v1) :: amodify rest k f) k2
            = alookup (amodify rest k f) k2 := by simp [alookup, h2]
        have e2 : alookup ((k1, v1) :: rest) k2 = alookup rest k2 := by
          simp [alookup, h2]
        rw [e1, ih, e2]

theorem akeys_amodify {α β : Type} [DecidableEq α] (l : List (α × β)) (k : α)
    (f : β → β) : akeys (amodify l k f) = akeys l := by
  refine akeys_map_keypreserving ?_
  intro p
  by_cases h : p.1 = k <;> simp [h]

theorem length_amodify {α β : Type} [DecidableEq α] (l : List (α × β)) (k : α)
    (f : β → β) : (amodify l k f).length = l.length := by
  simp [amodify]

theorem mem_amodify {α β : Type} [DecidableEq α] {l : List (α × β)} {k : α}
    {f : β → β} {q : α × β} (h : q ∈ amodify l k f) :
    q.1 ∈ akeys l := by
  simp only [amodify, List.mem_map] at h
  obtain ⟨⟨a, b⟩, hp, hq⟩ := h
  by_cases h1 : a = k
  · simp only [h1, if_pos] at hq
    subst hq
    simpa [akeys, ← h1] using List.mem_map_of_mem Prod.fst hp
  · simp only [h1, if_neg, if_false] at hq
    subst hq
    simpa [akeys] using List.mem_map_of_mem Prod.fst hp

theorem ainsert_of_none {α β : Type} [DecidableEq α] (l : List (α × β)) (k : α)
    (v : β) (h : alookup l k = none) : ainsert l k v = l ++ [(k, v)] := by
  simp [ainsert, h]

theorem map_replace_self_eq {α β : Type} [DecidableEq α] {l : List (α × β)}
    {k : α} {v : β} (hnd : (akeys l).Nodup) (h : alookup l k = some v) :
    l.map (fun p => if p.1 = k then (k, v) else p) = l := by
  induction l with
  | nil => simp [alookup] at h
  | cons p rest ih =>
    obtain ⟨k1, v1⟩ := p
    rw [List.map_cons]
    by_cases h1 : k1 = k
    · subst h1
      have hv : v1 = v := by simpa [alookup] using h
      subst hv
      have hnd2 : k1 ∉ rest.map Prod.fst ∧ (rest.map Prod.fst).Nodup := by
        simpa [akeys, List.nodup_cons] using hnd
      have htail : rest.map (fun p => if p.1 = k1 then (k1, v1) else p) = rest := by
        refine map_id_on fun p hp => ?_
        have hne : p.1 ≠ k1 := fun he => hnd2.1 (he ▸ List.mem_map_of_mem Prod.fst hp)
        simp [hne]
      simp [htail]
    · have h2 : alookup rest k = some v := by simpa [alookup, h1] using h
      have hnd2 : (akeys rest).Nodup := by
        have := by simpa [akeys, List.nodup_cons] using hnd
        exact this.2
      simp [h1, ih hnd2 h2]

theorem ainsert_of_some_self {α β : Type} [DecidableEq α] (l : List (α × β))
    (k : α) (v : β) (hnd : (akeys l).Nodup) (h : alookup l k = some v) :
    ainsert l k v = l := by
  have hs : (alookup l k).isSome = true := by simp [h]
  unfold ainsert
  rw [if_pos hs]
  exact map_replace_self_eq hnd h

theorem map_replace_cons {α β : Type} [DecidableEq α] (k1 : α) (v1 : β)
    (rest : List (α × β)) (k : α) (v : β) :
    ((k1, v1) :: rest).map (fun p => if p.1 = k then (k, v) else p)
      = (if k1 = k then (k, v) else (k1, v1))
        :: rest.map (fun p => if p.1 = k then (k, v) else p) := by
  by_cases h : k1 = k <;> simp [h]

theorem alookup_map_replace_self {α β : Type} [DecidableEq α] (l : List (α × β))
    (k : α) (v : β) (h : (alookup l k).isSome = true) :
    alookup (l.map (fun p => if p.1 = k then (k, v) else p)) k = some v := by
  induction l with
  | nil => simp [alookup] at h
  | cons p rest ih =>
    obtain ⟨k1, v1⟩ := p
    rw [map_replace_cons]
    by_cases h1 : k1 = k
    · rw [if_pos h1]
      simp [alookup]
    · rw [if_neg h1]
      have h2 : (alookup rest k).isSome = true := by simpa [alookup, h1] using h
      have e1 : alookup ((k1, v1)
            :: rest.map (fun p => if p.1 = k then (k, v) else p)) k
          = alookup (rest.map (fun p => if p.1 = k then (k, v) else p)) k := by
        simp [alookup, h1]
      rw [e1]
      exact ih h2

theorem alookup_map_replace_ne {α β : Type} [DecidableEq α] (l : List (α × β))
    (k : α) (v : β) (k2 : α) (hne : k2 ≠ k) :
    alookup (l.map (fun p => if p.1 = k then (k, v) else p)) k2 = alookup l k2 := by
  induction l with
  | nil => simp
  | cons p rest ih =>
    obtain ⟨k1, v1⟩ := p
    rw [map_replace_cons]
    by_cases h1 : k1 = k
    · rw [if_pos h1]
      have hk2 : ¬ k = k2 := fun he => hne he.symm
      have hk12 : ¬ k1 = k2 := fun he => hne (he.symm.trans h1)
      have e1 : alookup ((k, v)
            :: rest.map (fun p => if p.1 = k then (k, v) else p)) k2
          = alookup (rest.map (fun p => if p.1 = k then (k, v) else p)) k2 := by
        simp [alookup, hk2]
      have e2 : alookup ((k1, v1) :: rest) k2 = alookup rest k2 := by
        simp [alookup, hk12]
      rw [e1, ih, e2]
    · rw [if_neg h1]
      by_cases h2 : k1 = k2
      · have e1 : alookup ((k1, v1)
              :: rest.map (fun p => if p.1 = k then (k, v) else p)) k2
            = some v1 := by simp [alookup, h2]
        have e2 : alookup ((k1, v1) :: rest) k2 = some v1 := by simp [alookup, h2]
        rw [e1, e2]
      · have e1 : alookup ((k1, v1)
              :: rest.map (fun p => if p.1 = k then (k, v) else p)) k2
            = alookup (rest.map (fun p => if p.1 = k then (k, v) else p)) k2 := by
          simp [alookup, h2]
        have e2 : alookup ((k1, v1) :: rest) k2 = alookup rest k2 := by
          simp [alookup, h2]
        rw [e1, ih, e2]

theorem alookup_ainsert_self {α β : Type} [DecidableEq α] (l : List (α × β))
    (k : α) (v : β) : alookup (ainsert l k v) k = some v := by
  cases hl : alookup l k with
  | some v0 =>
    have hs : (alookup l k).isSome = true := by simp [hl]
    unfold ainsert
    rw [if_pos hs]
    exact alookup_map_replace_self l k v hs
  | none =>
    have hs : ¬ (alookup l k).isSome = true := by simp [hl]
    unfold ainsert
    rw [if_neg hs, alookup_append]
    simp [hl, alookup]

theorem alookup_ainsert_ne {α β : Type} [DecidableEq α] (l : List (α × β))
    (k : α) (v : β) (k2 : α) (hne : k2 ≠ k) :
    alookup (ainsert l k v) k2 = alookup l k2 := by
  cases hl : alookup l k with
  | some v0 =>
    have hs : (alookup l k).isSome = true := by simp [hl]
    unfold ainsert
    rw [if_pos hs]
    exact alookup_map_replace_ne l k v k2 hne
  | none =>
    have hs : ¬ (alookup l k).isSome = true := by simp [hl]
    unfold ainsert
    rw [if_neg hs, alookup_append]
    have hk : ¬ k = k2 := fun he => hne he.symm
    cases hl2 : alookup l k2 with
    | some w => simp
    | none => simp [alookup, hk]

theorem akeys_ainsert_of_isSome {α β : Type} [DecidableEq α] (l : List (α × β))
    (k : α) (v : β) (h : (alookup l k).isSome = true) :
    akeys (ainsert l k v) = akeys l := by
  unfold ainsert
  rw [if_pos h]
  refine akeys_map_keypreserving ?_
  intro p
  by_cases hp : p.1 = k <;> simp [hp]

theorem length_ainsert_of_isSome {α β : Type} [DecidableEq α] (l : List (α × β))
    (k : α) (v : β) (h : (alookup l k).isSome = true) :
    (ainsert l k v).length = l.length := by
  unfold ainsert
  rw [if_pos h]
  simp

theorem pushDedup_key_not_seen {α κ : Type} [DecidableEq κ] (key : α → κ)
    (l : List α) (seen : List κ) :
    ∀ x ∈ pushDedup key l seen, key x ∉ seen := by
  induction l generalizing seen with
  | nil => simp [pushDedup]
  | cons x rest ih =>
    by_cases h : key x ∈ seen
    · simpa [pushDedup, h] using ih seen
    · intro y hy
      rw [pushDedup, if_neg h] at hy
      rcases List.mem_cons.mp hy with hy | hy
      · subst hy
        exact h
      · intro hk
        exact ih (key x :: seen) y hy (List.mem_cons_of_mem _ hk)

theorem pushDedup_pairwise {α κ : Type} [DecidableEq κ] (key : α → κ)
    (l : List α) (seen : List κ) :
    (pushDedup key l seen).Pairwise (fun a b => key a ≠ key b) := by
  induction l generalizing seen with
  | nil => simp [pushDedup]
  | cons x rest ih =>
    by_cases h : key x ∈ seen
    · simpa [pushDedup, h] using ih seen
    · rw [pushDedup, if_neg h]
      refine List.Pairwise.cons ?_ (ih (key x :: seen))
      intro y hy
      have := pushDedup_key_not_seen key rest (key x :: seen) y hy
      exact fun he => this (he ▸ List.mem_cons_self _ _)

theorem pushDedup_sublist {α κ : Type} [DecidableEq κ] (key : α → κ)
    (l : List α) (seen : List κ) : (pushDedup key l seen).Sublist l := by
  induction l generalizing seen with
  | nil => simp [pushDedup]
  | cons x rest ih =>
    by_cases h : key x ∈ seen
    · rw [pushDedup, if_pos h]
      exact (ih seen).cons x
    · rw [pushDedup, if_neg h]
      exact (ih (key x :: seen)).cons₂ x

theorem pushDedup_congr_seen {α κ : Type} [DecidableEq κ] (key : α → κ)
    (l : List α) (s1 s2 : List κ) (h : ∀ a, a ∈ s1 ↔ a ∈ s2) :
    pushDedup key l s1 = pushDedup key l s2 := by
  induction l generalizing s1 s2 with
  | nil => simp [pushDedup]
  | cons x rest ih =>
    by_cases hx : key x ∈ s1
    · rw [pushDedup, if_pos hx, pushDedup, if_pos ((h (key x)).mp hx)]
      exact ih s1 s2 h
    · rw [pushDedup, if_neg hx, pushDedup, if_neg (fun hc => hx ((h (key x)).mpr hc))]
      refine congrArg (x :: ·) (ih _ _ fun a => ?_)
      simp only [List.mem_cons]
      exact or_congr Iff.rfl (h a)

theorem specFirstSeen_foldl {α κ : Type} [DecidableEq κ] (key : α → κ)
    (l : List α) (acc : List α) :
    l.foldl (fun acc x => if ∃ y ∈ acc, key y = key x then acc else acc ++ [x]) acc
      = acc ++ pushDedup key l (acc.map key) := by
  induction l generalizing acc with
  | nil => simp [pushDedup]
  | cons x rest ih =>
    rw [List.foldl_cons]
    by_cases hc : ∃ y ∈ acc, key y = key x
    · have hmem : key x ∈ acc.map key := by
        obtain ⟨y, hy, he⟩ := hc
        exact he ▸ List.mem_map_of_mem key hy
      rw [if_pos hc, ih, pushDedup, if_pos hmem]
    · have hmem : key x ∉ acc.map key := by
        intro hm
        obtain ⟨y, hy, he⟩ := List.mem_map.mp hm
        exact hc ⟨y, hy, he⟩
      rw [if_neg hc, ih, pushDedup, if_neg hmem, List.append_assoc]
      refine congrArg (acc ++ ·) (congrArg (x :: ·) ?_)
      refine pushDedup_congr_seen key rest _ _ fun a => ?_
      simp [List.mem_append, List.mem_cons, or_comm]

theorem pushDedup_eq_specFirstSeen {α κ : Type} [DecidableEq κ] (key : α → κ)
    (l : List α) : pushDedup key l [] = specFirstSeen key l := by
  have := specFirstSeen_foldl key l []
  simpa [specFirstSeen] using this.symm

/-! ## Claim theorems -/

/-- C2: a dequeued frontier entry whose child URL parses with an http or
https scheme but whose domain is neither the base domain nor a suffix-match
subdomain of it is skipped by the worker — the loop iteration ends in a
`continue` with no fetch and no counter increment. -/
theorem offscope_entry_skipped (graph : LinkGraph) (visited maxLinks : Nat)
    (base : String) (lp : LinkPath) (u : UrlM) (d : String)
    (hp : parseUrl lp.child = some u)
    (hs : u.scheme = "http" ∨ u.scheme = "https")
    (hd : u.domain = some d)
    (hns : is_same_domain d base = false) :
    processEntry graph visited maxLinks base lp = .skipEntry ∧
    (processEntry graph visited maxLinks base lp).counterAfter visited = visited ∧
    (processEntry graph visited maxLinks base lp).doesFetch = false := by
  have hchild : ¬ lp.child = "" := by
    intro he
    have h0 : parseUrl "" = none := by decide
    rw [he, h0] at hp
    cases hp
  have h1 : processEntry graph visited maxLinks base lp = .skipEntry := by
    simp [processEntry, hchild, hp, hd, hns, hs]
  refine ⟨h1, ?_, ?_⟩ <;> rw [h1] <;> rfl

/-- Witness for `offscope_entry_skipped` at a concrete off-domain entry. -/
theorem offscope_entry_skipped_witness :
    parseUrl "http://evil.com/" =
      some ⟨"http", some "evil.com", "http://evil.com/"⟩ ∧
    (⟨"http", some "evil.com", "http://evil.com/"⟩ : UrlM).domain
      = some "evil.com" ∧
    is_same_domain "evil.com" "example.com" = false ∧
    processEntry LinkGraph.empty 0 10 "example.com" ⟨"", "http://evil.com/"⟩
      = .skipEntry :=
  ⟨by decide, by decide, by decide,
    (offscope_entry_skipped LinkGraph.empty 0 10 "example.com"
      ⟨"", "http://evil.com/"⟩ ⟨"http", some "evil.com", "http://evil.com/"⟩
      "evil.com" (by decide) (Or.inl rfl) (by decide) (by decide)).1⟩

/-- C10: when the starting URL fails to parse or has no domain component,
`new_crawler_state` still succeeds (it is total), silently sets the base
domain to "localhost", and seeds the frontier with the starting URL as the
sole entry (its parent being the `Default` empty string). -/
theorem crawler_state_localhost_fallback (s : String) (maxLinks : Nat)
    (h : parseUrl s = none ∨ ∃ u, parseUrl s = some u ∧ u.domain = none) :
    (new_crawler_state s maxLinks).baseDomain = "localhost" ∧
    (new_crawler_state s maxLinks).linkQueue = [⟨"", s⟩] := by
  constructor
  · rcases h with h | ⟨u, hu, hd⟩
    · simp [new_crawler_state, h]
    · simp [new_crawler_state, hu, hd]
  · rfl

/-- Witness for `crawler_state_localhost_fallback` at an unparsable URL and
at a parsable URL with a numeric (domain-less) host. -/
theorem crawler_state_localhost_fallback_witness :
    parseUrl "notaurl" = none ∧
    (new_crawler_state "notaurl" 5).baseDomain = "localhost" ∧
    (new_crawler_state "http://127.0.0.1/x" 5).baseDomain = "localhost" :=
  ⟨by decide,
    (crawler_state_localhost_fallback "notaurl" 5 (Or.inl (by decide))).1,
    (crawler_state_localhost_fallback "http://127.0.0.1/x" 5
      (Or.inr ⟨⟨"http", some "127.0.0.1", "http://127.0.0.1/x"⟩,
        by decide, by decide⟩)).1⟩

/-- C7: `download_one` with every attempt failing makes exactly 3 attempts,
sleeping 500ms then 1000ms (strictly increasing, 500ms times the attempt
number) between them, and returns the last attempt's error; when the k-th
attempt (1-based k = i+1 ≤ 3) is the first to succeed it returns success
after exactly k attempts. -/
theorem download_one_retries :
    (∀ res : Nat → Option String, ∀ e0 e1 e2 : String,
      res 0 = some e0 → res 1 = some e1 → res 2 = some e2 →
      download_image res = (some e2, 3, [500, 1000])) ∧
    (∀ res : Nat → Option String, ∀ k : Nat, k < MAX_RETRIES →
      res k = none → (∀ j, j < k → res j ≠ none) →
      (download_image res).2.1 = k + 1 ∧ (download_image res).1 = none) := by
  constructor
  · intro res e0 e1 e2 h0 h1 h2
    simp [download_image, downloadLoop, MAX_RETRIES, List.range_succ, h0, h1, h2]
  · intro res k hk hnone hfail
    have hk3 : k < 3 := hk
    interval_cases k
    · refine ⟨?_, ?_⟩ <;>
        simp [download_image, downloadLoop, MAX_RETRIES, List.range_succ, hnone]
    · obtain ⟨e0, he0⟩ := Option.ne_none_iff_exists'.mp (hfail 0 (by omega))
      refine ⟨?_, ?_⟩ <;>
        simp [download_image, downloadLoop, MAX_RETRIES, List.range_succ, he0, hnone]
    · obtain ⟨e0, he0⟩ := Option.ne_none_iff_exists'.mp (hfail 0 (by omega))
      obtain ⟨e1, he1⟩ := Option.ne_none_iff_exists'.mp (hfail 1 (by omega))
      refine ⟨?_, ?_⟩ <;>
        simp [download_image, downloadLoop, MAX_RETRIES, List.range_succ, he0, he1,
          hnone]

/-- Witness for `download_one_retries` at a permanently failing target and at
a target whose second attempt succeeds. -/
theorem download_one_retries_witness :
    download_image (fun _ => some "e") = (some "e", 3, [500, 1000]) ∧
    (download_image (fun i => if i = 1 then none else some "e")).2.1 = 2 :=
  ⟨download_one_retries.1 (fun _ => some "e") "e" "e" "e" rfl rfl rfl,
    (download_one_retries.2 (fun i => if i = 1 then none else some "e") 1
      (by decide) rfl (fun j hj => by interval_cases j <;> simp)).1⟩

/-- C8: extension resolution first consults the content-type table (gif,
jpg/jpeg, png, svg, webp, tif/tiff, avif, bmp), then falls back to the last
path segment's suffix after its final dot — accepted only if non-empty and
at most 5 characters, lower-cased — and fails otherwise; in particular
content-type image/webp yields webp, and with no recognized content-type a
path segment ending in ".JPEG" yields "jpeg". -/
theorem extension_resolution_order :
    (∀ seg, get_extension (some "image/webp") seg = some "webp") ∧
    (∀ ct e seg, contentTypeExt ct = some e → get_extension (some ct) seg = some e) ∧
    (∀ ct seg, contentTypeExt ct = none → get_extension (some ct) seg = fallbackExt seg) ∧
    (∀ seg, get_extension none seg = fallbackExt seg) ∧
    (contentTypeExt "image/gif" = some "gif" ∧ contentTypeExt "image/jpeg" = some "jpg" ∧
     contentTypeExt "image/jpg" = some "jpg" ∧ contentTypeExt "image/png" = some "png" ∧
     contentTypeExt "image/svg+xml" = some "svg" ∧ contentTypeExt "image/webp" = some "webp" ∧
     contentTypeExt "image/tiff" = some "tif" ∧ contentTypeExt "image/tif" = some "tif" ∧
     contentTypeExt "image/avif" = some "avif" ∧ contentTypeExt "image/bmp" = some "bmp") ∧
    (∀ last ext, (splitOnChar '.' last.data).getLast? = some ext →
      2 ≤ (splitOnChar '.' last.data).length →
      fallbackExt (some last) =
        if ext ≠ [] ∧ ext.length ≤ 5
        then some (String.mk (ext.map Char.toLower)) else none) ∧
    (∀ last, (splitOnChar '.' last.data).length ≤ 1 →
      fallbackExt (some last) = none) ∧
    fallbackExt none = none ∧
    (∀ last, (splitOnChar '.' last.data).getLast? = some "JPEG".data →
      2 ≤ (splitOnChar '.' last.data).length →
      get_extension none (some last) = some "jpeg") := by
  refine ⟨fun seg => rfl, ?_, ?_, fun seg => rfl, ?_, ?_, ?_, rfl, ?_⟩
  · intro ct e seg h
    simp [get_extension, h]
  · intro ct seg h
    simp [get_extension, h]
  · exact ⟨rfl, rfl, rfl, rfl, rfl, rfl, rfl, rfl, rfl, rfl⟩
  · intro last ext hlast hlen
    have hgt : ¬ (splitOnChar '.' last.data).length ≤ 1 := by omega
    simp [fallbackExt, extFromLastSegment, hgt, hlast]
  · intro last hlen
    simp [fallbackExt, extFromLastSegment, hlen]
  · intro last hlast hlen
    have hgt : ¬ (splitOnChar '.' last.data).length ≤ 1 := by omega
    have hjp : ("JPEG".data ≠ [] ∧ "JPEG".data.length ≤ 5) := by decide
    have hlow : String.mk ("JPEG".data.map Char.toLower) = "jpeg" := by decide
    simp [get_extension, fallbackExt, extFromLastSegment, hgt, hlast, hjp, hlow]

/-- Witness for `extension_resolution_order` at concrete inputs. -/
theorem extension_resolution_order_witness :
    get_extension (some "image/webp") none = some "webp" ∧
    get_extension none (some "photo.JPEG") = some "jpeg" :=
  ⟨extension_resolution_order.1 none,
    (extension_resolution_order.2.2.2.2.2.2.2.2) "photo.JPEG"
      (by decide) (by decide)⟩

/-- C6: in the fold-results step an extracted link is enqueued exactly when
the budget check passes and the link satisfies the scheme/scope/dedup
filter: nothing is enqueued once the visited counter has reached max_links;
below budget the appended entries are precisely the links passing
`shouldAdd`, in order; passing `shouldAdd` requires an http/https scheme, an
in-scope domain, and an unregistered normalized form; an unparsable link
(and in particular any `mailto:` link) never passes. -/
theorem fold_results_enqueue_filter (graph : LinkGraph) (base : String)
    (visited maxLinks : Nat) (parentNorm : String) (links : List String)
    (queue : List LinkPath) :
    (maxLinks ≤ visited →
      foldLinks graph base visited maxLinks parentNorm links queue = queue) ∧
    (visited < maxLinks →
      foldLinks graph base visited maxLinks parentNorm links queue =
        queue ++ (links.filter (shouldAdd graph base)).map
          (fun l => ⟨parentNorm, normalizedOf l⟩)) ∧
    (∀ l u, parseUrl l = some u → shouldAdd graph base l = true →
      (u.scheme = "http" ∨ u.scheme = "https") ∧
      (∃ d, u.domain = some d ∧ is_same_domain d base = true) ∧
      graph.link_visited u.normalized = false) ∧
    (∀ l, parseUrl l = none → shouldAdd graph base l = false) ∧
    (∀ l u, parseUrl l = some u → u.scheme = "mailto" →
      shouldAdd graph base l = false) := by
  refine ⟨?_, ?_, ?_, ?_, ?_⟩
  · intro h
    cases links with
    | nil => rfl
    | cons l rest => simp [foldLinks, h]
  · intro hlt
    have hnot : ¬ maxLinks ≤ visited := by omega
    induction links generalizing queue with
    | nil => simp [foldLinks]
    | cons l rest ih =>
      rw [foldLinks]
      rw [if_neg hnot]
      by_cases hs : shouldAdd graph base l
      · rw [if_pos hs, ih, List.filter_cons_of_pos hs, List.map_cons]
        simp [List.append_assoc]
      · rw [if_neg hs, ih, List.filter_cons_of_neg hs]
  · intro l u hp hadd
    simp only [shouldAdd, hp] at hadd
    by_cases hs : (u.scheme = "http" ∨ u.scheme = "https")
    · rw [if_neg (not_not_intro hs)] at hadd
      simp only [Bool.and_eq_true] at hadd
      obtain ⟨h1, h2⟩ := hadd
      cases hd : u.domain with
      | none => rw [hd] at h1; simp at h1
      | some d =>
        rw [hd] at h1
        simp only [Option.map, Option.getD] at h1
        refine ⟨hs, ⟨d, rfl, h1⟩, ?_⟩
        simpa using h2
    · rw [if_pos hs] at hadd
      cases hadd
  · intro l hp
    simp [shouldAdd, hp]
  · intro l u hp hm
    have hne : ¬ (u.scheme = "http" ∨ u.scheme = "https") := by
      rw [hm]
      decide
    simp [shouldAdd, hp, hne]

/-- Witness for `fold_results_enqueue_filter`: from page
https://example.com/ with budget room, a mailto link and an off-domain link
are dropped while a subdomain link is enqueued. -/
theorem fold_results_enqueue_filter_witness :
    (0 : Nat) < 10 ∧
    foldLinks LinkGraph.empty "example.com" 0 10 "https://example.com/"
      ["mailto:a@b", "https://other.com/", "https://sub.example.com/p"] []
      = [⟨"https://example.com/", "https://sub.example.com/p"⟩] := by
  refine ⟨by decide, ?_⟩
  have h := (fold_results_enqueue_filter LinkGraph.empty "example.com" 0 10
    "https://example.com/"
    ["mailto:a@b", "https://other.com/", "https://sub.example.com/p"] []).2.1
    (by decide)
  rw [h]
  decide

theorem countP_flatMap {α β : Type} (p : β → Bool) (f : α → List β)
    (l : List α) :
    (l.flatMap f).countP p = (l.map (fun a => (f a).countP p)).sum := by
  induction l with
  | nil => simp
  | cons a rest ih => simp [List.countP_append, ih]

theorem sum_le_of_two_mem {α : Type} [DecidableEq α] (f : α → Nat) {l : List α} {a b : α}
    (ha : a ∈ l) (hb : b ∈ l) (hab : a ≠ b) :
    f a + f b ≤ (l.map f).sum := by
  have hperm : l.Perm (a :: l.erase a) := List.perm_cons_erase ha
  have hb2 : b ∈ l.erase a := (List.mem_erase_of_ne fun he => hab he.symm).mpr hb
  have hsum : (l.map f).sum = f a + ((l.erase a).map f).sum := by
    have := (hperm.map f).sum_eq
    simpa using this
  have hfb : f b ≤ ((l.erase a).map f).sum :=
    List.single_le_sum (fun x _ => Nat.zero_le x) _ (List.mem_map_of_mem f hb2)
  omega

/-- C9: `flatten` produces one output entry per Image occurrence across all
Links (fresh ids modelled as distinct indices): the entry values are exactly
the concatenation of every Link's images, the generated keys are pairwise
distinct, and a source URL appearing on two different pages yields at least
two entries carrying that URL — no cross-page dedup. -/
theorem flatten_no_cross_page_dedup (g : LinkGraph) (k1 k2 : Nat)
    (l1 l2 : Link) (i1 i2 : Image) (u : String)
    (h1 : (k1, l1) ∈ g.links) (h2 : (k2, l2) ∈ g.links) (hk : k1 ≠ k2)
    (hi1 : i1 ∈ l1.images) (hi2 : i2 ∈ l2.images)
    (hu1 : i1.link = u) (hu2 : i2.link = u) :
    (convert_links_to_images g).map Prod.snd
      = (g.links.map Prod.snd).flatMap Link.images ∧
    ((convert_links_to_images g).map Prod.fst).Nodup ∧
    2 ≤ ((convert_links_to_images g).filter
      (fun pr => pr.2.link == u)).length := by
  refine ⟨List.enum_map_snd _, ?_, ?_⟩
  · rw [convert_links_to_images, List.enum_map_fst]
    exact List.nodup_range _
  · rw [← List.countP_eq_length_filter]
    have hsnd : (convert_links_to_images g).map Prod.snd
        = (g.links.map Prod.snd).flatMap Link.images := List.enum_map_snd _
    have hcnt : ((convert_links_to_images g).countP (fun pr => pr.2.link == u))
        = ((g.links.map Prod.snd).flatMap Link.images).countP
            (fun img => img.link == u) := by
      rw [← hsnd, List.countP_map]
      rfl
    rw [hcnt, countP_flatMap, List.map_map]
    have hc1 : 1 ≤ l1.images.countP (fun img => img.link == u) := by
      have : 0 < l1.images.countP (fun img => img.link == u) :=
        List.countP_pos.mpr ⟨i1, hi1, by simp [hu1]⟩
      omega
    have hc2 : 1 ≤ l2.images.countP (fun img => img.link == u) := by
      have : 0 < l2.images.countP (fun img => img.link == u) :=
        List.countP_pos.mpr ⟨i2, hi2, by simp [hu2]⟩
      omega
    have hneq : (k1, l1) ≠ (k2, l2) := fun he => hk (congrArg Prod.fst he)
    have hb := sum_le_of_two_mem
      ((fun a : Link => a.images.countP (fun img => img.link == u)) ∘ Prod.snd)
      h1 h2 hneq
    simp only [Function.comp_apply] at hb
    omega

/-- Witness for `flatten_no_cross_page_dedup` on a concrete two-page graph
sharing one image source URL. -/
theorem flatten_no_cross_page_dedup_witness :
    2 ≤ ((convert_links_to_images c9graph).filter
      (fun pr => pr.2.link == "http://h/i.png")).length :=
  (flatten_no_cross_page_dedup c9graph 0 1
    ⟨0, "http://h/p1", ∅, ∅, [⟨"http://h/i.png", none⟩], []⟩
    ⟨1, "http://h/p2", ∅, ∅, [⟨"http://h/i.png", some "x"⟩], []⟩
    ⟨"http://h/i.png", none⟩ ⟨"http://h/i.png", some "x"⟩ "http://h/i.png"
    (by decide) (by decide) (by decide) (by decide) (by decide)
    (by decide) (by decide)).2.2

theorem forceGetLinkId_ok {g : LinkGraph} {url : String} {g1 : LinkGraph} {key : Nat}
    (h : g.forceGetLinkId url = .ok (g1, key)) :
    (alookup g.linkIds url = some key ∧
      g1.links = g.links ∧ g1.linkIds = ainsert g.linkIds url key ∧
      g1.nextId = g.nextId ∧ (alookup g.links key).isSome = true)
    ∨ (alookup g.linkIds url = none ∧ key = g.nextId ∧
      alookup g.links g.nextId = none ∧
      g1.links = g.links ++ [(g.nextId, Link.mkNew g.nextId url)] ∧
      g1.linkIds = ainsert g.linkIds url g.nextId ∧
      g1.nextId = g.nextId + 1) := by
  simp only [LinkGraph.forceGetLinkId] at h
  split at h
  next linkId heq =>
    split at h
    next val heq2 =>
      injection h with h2
      injection h2 with ha hb
      subst hb
      refine Or.inl ⟨heq, ?_, ?_, ?_, ?_⟩
      · rw [← ha]
      · rw [← ha]
      · rw [← ha]
      · simp [heq2]
    next heq2 => cases h
  next heq =>
    split at h
    next val heq2 => cases h
    next heq2 =>
      split at h
      next val heq3 =>
        injection h with h2
        injection h2 with ha hb
        subst hb
        refine Or.inr ⟨heq, rfl, heq2, ?_, ?_, ?_⟩
        · rw [← ha]
        · rw [← ha]
        · rw [← ha]
      next heq3 => cases h

theorem update_ok_cases {g : LinkGraph} {url parent : String} {cs : List String}
    {imgs : List Image} {ts : List String} {g' : LinkGraph}
    (h : g.update url parent cs imgs ts = .ok g') :
    ∃ g1 key link2,
      g.forceGetLinkId url = .ok (g1, key) ∧
      alookup (amodify g1.links key (updMut g parent cs imgs ts)) key = some link2 ∧
      ((alookup g.linkIds parent = none ∧
        g' = { g1 with links := amodify g1.links key (updMut g parent cs imgs ts) }) ∨
      (∃ pid, alookup g.linkIds parent = some pid ∧
        (alookup (amodify g1.links key (updMut g parent cs imgs ts)) pid).isSome = true ∧
        g' = { g1 with
          links := amodify (amodify g1.links key (updMut g parent cs imgs ts))
            pid (parentMut link2.id) })) := by
  simp only [LinkGraph.update] at h
  split at h
  next e heq => cases h
  next g1 key heq =>
    split at h
    next heq2 => cases h
    next link2 heq2 =>
      split at h
      next pid heq3 =>
        split at h
        next heq4 => cases h
        next pval heq4 =>
          injection h with h2
          exact ⟨g1, key, link2, heq, heq2, Or.inr ⟨pid, heq3, by simp [heq4], by rw [← h2]⟩⟩
      next heq3 =>
        injection h with h2
        exact ⟨g1, key, link2, heq, heq2, Or.inl ⟨heq3, by rw [← h2]⟩⟩

theorem updMut_images (g : LinkGraph) (parent : String) (cs : List String)
    (imgs : List Image) (ts : List String) (link : Link) :
    (updMut g parent cs imgs ts link).images
      = link.images ++ pushDedup Image.link imgs [] := by
  cases hp : alookup g.linkIds parent <;> simp [updMut, hp]

theorem updMut_titles (g : LinkGraph) (parent : String) (cs : List String)
    (imgs : List Image) (ts : List String) (link : Link) :
    (updMut g parent cs imgs ts link).titles
      = link.titles ++ pushDedup id ts [] := by
  cases hp : alookup g.linkIds parent <;> simp [updMut, hp]

theorem updMut_children (g : LinkGraph) (parent : String) (cs : List String)
    (imgs : List Image) (ts : List String) (link : Link) :
    (updMut g parent cs imgs ts link).children
      = link.children ∪ (cs.filterMap (fun c => alookup g.linkIds c)).toFinset := by
  cases hp : alookup g.linkIds parent <;> simp [updMut, hp]

theorem updMut_parents (g : LinkGraph) (parent : String) (cs : List String)
    (imgs : List Image) (ts : List String) (link : Link) :
    (updMut g parent cs imgs ts link).parents
      = match alookup g.linkIds parent with
        | some pid => insert pid link.parents
        | none => link.parents := by
  cases hp : alookup g.linkIds parent <;> simp [updMut, hp]

theorem updMut_id (g : LinkGraph) (parent : String) (cs : List String)
    (imgs : List Image) (ts : List String) (link : Link) :
    (updMut g parent cs imgs ts link).id = link.id := by
  cases hp : alookup g.linkIds parent <;> simp [updMut, hp]

theorem parentMut_images (tid : Nat) (pl : Link) :
    (parentMut tid pl).images = pl.images := rfl

theorem parentMut_titles (tid : Nat) (pl : Link) :
    (parentMut tid pl).titles = pl.titles := rfl

theorem parentMut_parents (tid : Nat) (pl : Link) :
    (parentMut tid pl).parents = pl.parents := rfl

theorem parentMut_children (tid : Nat) (pl : Link) :
    (parentMut tid pl).children = insert tid pl.children := rfl

theorem parentMut_id (tid : Nat) (pl : Link) :
    (parentMut tid pl).id = pl.id := rfl

theorem map_alookup_amodify {β γ : Type} (L : List (Nat × β)) (pid : Nat)
    (f : β → β) (F : β → γ) (hf : ∀ x, F (f x) = F x) (k : Nat) :
    (alookup (amodify L pid f) k).map F = (alookup L k).map F := by
  rw [alookup_amodify]
  by_cases hk : k = pid
  · rw [if_pos hk]
    cases alookup L k <;> simp [hf]
  · rw [if_neg hk]

/-- C1 counterexample: the `seen_images` set of `LinkGraph::update` is local
to each call, so two successive `update` calls for the same URL carrying the
same image leave the Link's images list with two Images of the same
source_url — the claimed cross-call invariant is false. -/
theorem link_lists_cross_call_dup_counterexample :
    (LinkGraph.empty.update "u" "" [] [cImg] []).toOption = some c1graph1 ∧
    (c1graph1.update "u" "" [] [cImg] []).toOption = some c1graph2 ∧
    imagesOfUrl c1graph2 "u" = [cImg, cImg] ∧
    ¬ ((imagesOfUrl c1graph2 "u").map Image.link).Nodup :=
  ⟨by decide, by decide, by decide, by decide⟩

/-- C1 amended: within each single successful `update` call, the images
appended to the Link are deduplicated by source_url among that call's
arguments and the titles by exact value, preserving first-seen order within
the call (the appended block is pairwise-distinct, an order-preserving
sublist of the arguments, and exactly the spec's first-seen dedup of the
arguments); across separate `update` calls for the same URL equal values
may recur, the lists growing by appending each call's block. -/
theorem update_dedups_images_titles_per_call (g : LinkGraph)
    (url parent : String) (cs : List String) (imgs : List Image)
    (ts : List String) (g' : LinkGraph)
    (h : g.update url parent cs imgs ts = .ok g') :
    imagesOfUrl g' url = imagesOfUrl g url ++ pushDedup Image.link imgs [] ∧
    titlesOfUrl g' url = titlesOfUrl g url ++ pushDedup id ts [] ∧
    (pushDedup Image.link imgs []).Pairwise (fun a b => a.link ≠ b.link) ∧
    (pushDedup id ts []).Pairwise (fun a b => a ≠ b) ∧
    (pushDedup Image.link imgs []).Sublist imgs ∧
    (pushDedup id ts []).Sublist ts ∧
    pushDedup Image.link imgs [] = specFirstSeen Image.link imgs ∧
    pushDedup id ts [] = specFirstSeen id ts := by
  obtain ⟨g1, key, link2, hfg, hlk, hcases⟩ := update_ok_cases h
  have hmain : ∃ old : Link, alookup g1.links key = some old ∧
      old.images = imagesOfUrl g url ∧ old.titles = titlesOfUrl g url ∧
      g1.linkIds = ainsert g.linkIds url key := by
    rcases forceGetLinkId_ok hfg with
      ⟨hmem, hl, hli, hn, hsome⟩ | ⟨hnone, hkey, hcol, hl, hli, hn⟩
    · obtain ⟨old, hold⟩ := Option.isSome_iff_exists.mp hsome
      refine ⟨old, by rw [hl]; exact hold, ?_, ?_, hli⟩
      · simp [imagesOfUrl, linkOfUrl, hmem, hold]
      · simp [titlesOfUrl, linkOfUrl, hmem, hold]
    · subst hkey
      refine ⟨Link.mkNew g.nextId url, ?_, ?_, ?_, hli⟩
      · rw [hl, alookup_append]
        simp [hcol, alookup]
      · simp [imagesOfUrl, linkOfUrl, hnone, Link.mkNew]
      · simp [titlesOfUrl, linkOfUrl, hnone, Link.mkNew]
  obtain ⟨old, holdlk, holdim, holdti, hgl⟩ := hmain
  have hgid : ∀ gr : LinkGraph, gr.linkIds = g1.linkIds →
      (imagesOfUrl gr url = ((alookup gr.links key).map Link.images).getD [] ∧
       titlesOfUrl gr url = ((alookup gr.links key).map Link.titles).getD []) := by
    intro gr hgr
    have : alookup gr.linkIds url = some key := by
      rw [hgr, hgl]
      exact alookup_ainsert_self _ _ _
    constructor
    · simp [imagesOfUrl, linkOfUrl, this]
    · simp [titlesOfUrl, linkOfUrl, this]
  have hinner_im : (alookup (amodify g1.links key (updMut g parent cs imgs ts)) key).map
      Link.images = some (imagesOfUrl g url ++ pushDedup Image.link imgs []) := by
    rw [alookup_amodify, if_pos rfl, holdlk]
    simp [updMut_images, holdim]
  have hinner_ti : (alookup (amodify g1.links key (updMut g parent cs imgs ts)) key).map
      Link.titles = some (titlesOfUrl g url ++ pushDedup id ts []) := by
    rw [alookup_amodify, if_pos rfl, holdlk]
    simp [updMut_titles, holdti]
  have him : imagesOfUrl g' url = imagesOfUrl g url ++ pushDedup Image.link imgs [] ∧
      titlesOfUrl g' url = titlesOfUrl g url ++ pushDedup id ts [] := by
    rcases hcases with ⟨hpn, hg'⟩ | ⟨pid, hps, hpl, hg'⟩
    · have hids : g'.linkIds = g1.linkIds := by rw [hg']
      obtain ⟨e1, e2⟩ := hgid g' hids
      constructor
      · rw [e1, hg']
        simp only
        rw [hinner_im]
        rfl
      · rw [e2, hg']
        simp only
        rw [hinner_ti]
        rfl
    · have hids : g'.linkIds = g1.linkIds := by rw [hg']
      obtain ⟨e1, e2⟩ := hgid g' hids
      constructor
      · rw [e1, hg']
        simp only
        rw [map_alookup_amodify _ _ _ _ (parentMut_images link2.id) key, hinner_im]
        rfl
      · rw [e2, hg']
        simp only
        rw [map_alookup_amodify _ _ _ _ (parentMut_titles link2.id) key, hinner_ti]
        rfl
  refine ⟨him.1, him.2, pushDedup_pairwise _ _ _, pushDedup_pairwise _ _ _,
    pushDedup_sublist _ _ _, pushDedup_sublist _ _ _,
    pushDedup_eq_specFirstSeen _ _, pushDedup_eq_specFirstSeen _ _⟩

/-- Witness for `update_dedups_images_titles_per_call` on a concrete call
carrying a duplicated image argument: a single call appends the image once. -/
theorem update_dedups_per_call_witness :
    imagesOfUrl ((LinkGraph.empty.update "u" "" [] [cImg, cImg] []).toOption.getD
      LinkGraph.empty) "u" = [cImg] :=
  ((update_dedups_images_titles_per_call LinkGraph.empty "u" "" [] [cImg, cImg] []
    ((LinkGraph.empty.update "u" "" [] [cImg, cImg] []).toOption.getD
      LinkGraph.empty) rfl).1).trans (by decide)

theorem isSome_alookup_amodify {α β : Type} [DecidableEq α] (L : List (α × β))
    (k : α) (f : β → β) (k2 : α) :
    (alookup (amodify L k f) k2).isSome = (alookup L k2).isSome := by
  rw [alookup_amodify]
  by_cases hk : k2 = k
  · rw [if_pos hk]
    cases alookup L k2 <;> simp
  · rw [if_neg hk]

theorem isSome_alookup_append_left {α β : Type} [DecidableEq α]
    {l1 : List (α × β)} (l2 : List (α × β)) {k : α}
    (h : (alookup l1 k).isSome = true) :
    (alookup (l1 ++ l2) k).isSome = true := by
  rw [alookup_append]
  cases hl : alookup l1 k
  · rw [hl] at h
    cases h
  · simp

theorem mem_amodify_elim {α β : Type} [DecidableEq α] {L : List (α × β)}
    {k : α} {f : β → β} {q : α × β} (hq : q ∈ amodify L k f) :
    ∃ p ∈ L, q.1 = p.1 ∧ (q.2 = f p.2 ∨ q.2 = p.2) := by
  obtain ⟨p, hp, hpy⟩ := List.mem_map.mp hq
  by_cases hc : p.1 = k
  · rw [if_pos hc] at hpy
    exact ⟨p, hp, by rw [← hpy], Or.inl (by rw [← hpy])⟩
  · rw [if_neg hc] at hpy
    exact ⟨p, hp, by rw [← hpy], Or.inr (by rw [← hpy])⟩

theorem wf_amodify {g : LinkGraph} (hwf : WfGraph g) (k : Nat) (f : Link → Link)
    (hf : ∀ x, (f x).id = x.id) :
    WfGraph { g with links := amodify g.links k f } := by
  obtain ⟨w1, w2, w3, w4, w5⟩ := hwf
  refine ⟨?_, ?_, w3, ?_, ?_⟩
  · intro p hp
    simp only
    rw [isSome_alookup_amodify]
    exact w1 p hp
  · intro q hq
    simp only at hq ⊢
    obtain ⟨p, hp, hq1, _⟩ := mem_amodify_elim hq
    rw [hq1]
    exact w2 p hp
  · simp [length_amodify, w4]
  · intro q hq
    simp only at hq
    obtain ⟨p, hp, hq1, hq2⟩ := mem_amodify_elim hq
    rcases hq2 with hq2 | hq2
    · rw [hq1, hq2, hf]
      exact w5 p hp
    · rw [hq1, hq2]
      exact w5 p hp

theorem wf_register {g : LinkGraph} (hwf : WfGraph g) (url : String)
    (hnone : alookup g.linkIds url = none) :
    WfGraph ⟨g.links ++ [(g.nextId, Link.mkNew g.nextId url)],
      g.linkIds ++ [(url, g.nextId)], g.nextId + 1⟩ := by
  obtain ⟨w1, w2, w3, w4, w5⟩ := hwf
  have hnewlk : alookup (g.links ++ [(g.nextId, Link.mkNew g.nextId url)])
      g.nextId = some (Link.mkNew g.nextId url) := by
    rw [alookup_append]
    have hcol : alookup g.links g.nextId = none :=
      alookup_bound_none fun q hq => Nat.ne_of_lt (w2 q hq)
    simp [hcol, alookup]
  refine ⟨?_, ?_, ?_, ?_, ?_⟩
  · intro p hp
    simp only at hp ⊢
    rcases List.mem_append.mp hp with hp | hp
    · exact isSome_alookup_append_left _ (w1 p hp)
    · simp only [List.mem_singleton] at hp
      rw [hp]
      simp [hnewlk]
  · intro q hq
    simp only at hq ⊢
    rcases List.mem_append.mp hq with hq | hq
    · exact Nat.lt_succ_of_lt (w2 q hq)
    · simp only [List.mem_singleton] at hq
      rw [hq]
      exact Nat.lt_succ_self _
  · simp only [akeys, List.map_append]
    have hperm : (akeys g.linkIds ++ [url]).Perm (url :: akeys g.linkIds) :=
      List.perm_append_singleton _ _
    rw [show (g.linkIds.map Prod.fst ++ [(url, g.nextId)].map Prod.fst)
        = akeys g.linkIds ++ [url] from by simp [akeys]]
    rw [hperm.nodup_iff, List.nodup_cons]
    exact ⟨(alookup_eq_none_iff _ _).mp hnone, w3⟩
  · simp [w4]
  · intro q hq
    simp only at hq
    rcases List.mem_append.mp hq with hq | hq
    · exact w5 q hq
    · simp only [List.mem_singleton] at hq
      rw [hq]
      rfl

theorem update_wf {g : LinkGraph} (url parent : String) (cs : List String)
    (imgs : List Image) (ts : List String) (hwf : WfGraph g) :
    ∃ g', g.update url parent cs imgs ts = .ok g' ∧ WfGraph g' ∧
      g'.linkIds = (if (alookup g.linkIds url).isSome = true
        then g.linkIds else g.linkIds ++ [(url, g.nextId)]) ∧
      g'.links.length = (if (alookup g.linkIds url).isSome = true
        then g.links.length else g.links.length + 1) := by
  obtain ⟨w1, w2, w3, w4, w5⟩ := hwf
  have hf1 : ∀ x : Link, (updMut g parent cs imgs ts x).id = x.id :=
    updMut_id g parent cs imgs ts
  cases hca : alookup g.linkIds url with
  | some key =>
    have hpair := alookup_mem hca
    have hsome := w1 _ hpair
    obtain ⟨old, hold⟩ := Option.isSome_iff_exists.mp hsome
    have hins : ainsert g.linkIds url key = g.linkIds :=
      ainsert_of_some_self _ _ _ w3 hca
    have hfg : g.forceGetLinkId url = .ok (g, key) := by
      simp only [LinkGraph.forceGetLinkId, hca, hold]
      rw [hins]
    have hmid : alookup (amodify g.links key (updMut g parent cs imgs ts)) key
        = some (updMut g parent cs imgs ts old) := by
      rw [alookup_amodify, if_pos rfl, hold]
      rfl
    cases hpp : alookup g.linkIds parent with
    | none =>
      refine ⟨(⟨amodify g.links key (updMut g parent cs imgs ts),
          g.linkIds, g.nextId⟩ : LinkGraph), ?_, ?_, ?_, ?_⟩
      · simp only [LinkGraph.update, hfg, hmid, hpp]
      · exact wf_amodify ⟨w1, w2, w3, w4, w5⟩ key _ hf1
      · simp [hca]
      · simp [hca, length_amodify]
    | some pid =>
      have hpsome : (alookup (amodify g.links key (updMut g parent cs imgs ts))
          pid).isSome = true := by
        rw [isSome_alookup_amodify]
        exact w1 _ (alookup_mem hpp)
      obtain ⟨pl, hpl⟩ := Option.isSome_iff_exists.mp hpsome
      refine ⟨(⟨amodify (amodify g.links key (updMut g parent cs imgs ts)) pid
            (parentMut (updMut g parent cs imgs ts old).id),
          g.linkIds, g.nextId⟩ : LinkGraph), ?_, ?_, ?_, ?_⟩
      · simp only [LinkGraph.update, hfg, hmid, hpp, hpl]
      · exact wf_amodify (wf_amodify ⟨w1, w2, w3, w4, w5⟩ key _ hf1) pid _
          (fun x => rfl)
      · simp [hca]
      · simp [hca, length_amodify]
  | none =>
    have hcol : alookup g.links g.nextId = none :=
      alookup_bound_none fun q hq => Nat.ne_of_lt (w2 q hq)
    have happ : alookup (g.links ++ [(g.nextId, Link.mkNew g.nextId url)])
        g.nextId = some (Link.mkNew g.nextId url) := by
      rw [alookup_append]
      simp [hcol, alookup]
    have hins : ainsert g.linkIds url g.nextId = g.linkIds ++ [(url, g.nextId)] :=
      ainsert_of_none _ _ _ hca
    have hfg : g.forceGetLinkId url
        = .ok (⟨g.links ++ [(g.nextId, Link.mkNew g.nextId url)],
            g.linkIds ++ [(url, g.nextId)], g.nextId + 1⟩, g.nextId) := by
      simp only [LinkGraph.forceGetLinkId, hca, hcol, happ]
      rw [hins]
    have hwfR : WfGraph ⟨g.links ++ [(g.nextId, Link.mkNew g.nextId url)],
        g.linkIds ++ [(url, g.nextId)], g.nextId + 1⟩ :=
      wf_register ⟨w1, w2, w3, w4, w5⟩ url hca
    have hmid : alookup (amodify (g.links ++ [(g.nextId, Link.mkNew g.nextId url)])
        g.nextId (updMut g parent cs imgs ts)) g.nextId
        = some (updMut g parent cs imgs ts (Link.mkNew g.nextId url)) := by
      rw [alookup_amodify, if_pos rfl, happ]
      rfl
    cases hpp : alookup g.linkIds parent with
    | none =>
      refine ⟨(⟨amodify (g.links ++ [(g.nextId, Link.mkNew g.nextId url)])
            g.nextId (updMut g parent cs imgs ts),
          g.linkIds ++ [(url, g.nextId)], g.nextId + 1⟩ : LinkGraph),
        ?_, ?_, ?_, ?_⟩
      · simp only [LinkGraph.update, hfg, hmid, hpp]
      · exact wf_amodify hwfR g.nextId _ hf1
      · simp [hca]
      · simp [hca, length_amodify]
    | some pid =>
      have hppair := alookup_mem hpp
      have hpsome : (alookup (amodify (g.links ++
          [(g.nextId, Link.mkNew g.nextId url)]) g.nextId
          (updMut g parent cs imgs ts)) pid).isSome = true := by
        rw [isSome_alookup_amodify]
        exact isSome_alookup_append_left _ (w1 _ hppair)
      obtain ⟨pl, hpl⟩ := Option.isSome_iff_exists.mp hpsome
      refine ⟨(⟨amodify (amodify (g.links ++
            [(g.nextId, Link.mkNew g.nextId url)]) g.nextId
            (updMut g parent cs imgs ts)) pid
            (parentMut (updMut g parent cs imgs ts (Link.mkNew g.nextId url)).id),
          g.linkIds ++ [(url, g.nextId)], g.nextId + 1⟩ : LinkGraph),
        ?_, ?_, ?_, ?_⟩
      · simp only [LinkGraph.update, hfg, hmid, hpp, hpl]
      · exact wf_amodify (wf_amodify hwfR g.nextId _ hf1) pid _ (fun x => rfl)
      · simp [hca]
      · simp [hca, length_amodify]

theorem wf_empty : WfGraph LinkGraph.empty := by
  refine ⟨?_, ?_, ?_, rfl, ?_⟩ <;> simp [LinkGraph.empty, akeys]

theorem wf_len {g : LinkGraph} (hwf : WfGraph g) :
    g.len = (akeys g.linkIds).toFinset.card := by
  obtain ⟨_, _, w3, w4, _⟩ := hwf
  rw [LinkGraph.len, w4, List.toFinset_card_of_nodup w3]
  simp [akeys]

theorem applyUpdates_wf (calls : List UpdateCall) :
    ∀ g : LinkGraph, WfGraph g →
    WfGraph (applyUpdates g calls) ∧
    (akeys (applyUpdates g calls).linkIds).toFinset
      = (akeys g.linkIds).toFinset ∪ (calls.map (fun c => c.url)).toFinset := by
  induction calls with
  | nil =>
    intro g hwf
    exact ⟨hwf, by simp [applyUpdates]⟩
  | cons c rest ih =>
    intro g hwf
    obtain ⟨g', hok, hwf', hli, _⟩ :=
      update_wf c.url c.parent c.children c.images c.titles hwf
    have hstep : applyUpdates g (c :: rest) = applyUpdates g' rest := by
      simp [applyUpdates, hok]
    obtain ⟨hwf2, hkeys⟩ := ih g' hwf'
    rw [hstep]
    refine ⟨hwf2, ?_⟩
    rw [hkeys]
    have hkg' : (akeys g'.linkIds).toFinset
        = (akeys g.linkIds).toFinset ∪ {c.url} := by
      by_cases hca : (alookup g.linkIds c.url).isSome = true
      · rw [hli, if_pos hca]
        have hmem : c.url ∈ akeys g.linkIds := by
          cases h2 : alookup g.linkIds c.url with
          | none => rw [h2] at hca; cases hca
          | some v =>
            have := alookup_mem h2
            exact List.mem_map_of_mem Prod.fst this
        ext a
        simp only [Finset.mem_union, Finset.mem_singleton, List.mem_toFinset]
        constructor
        · exact fun h => Or.inl h
        · rintro (h | rfl)
          · exact h
          · exact hmem
      · rw [hli, if_neg hca]
        simp [akeys]
    rw [hkg']
    ext a
    simp only [Finset.mem_union, Finset.mem_singleton, List.mem_toFinset,
      List.map_cons, List.mem_cons]
    tauto

/-- C4: registration is idempotent and one-to-one: after any sequence of
`update` calls from the empty graph, `size()` equals the number of distinct
normalized URLs passed as the primary `url` argument, and updating the same
primary URL twice yields the same Link id both times. -/
theorem registration_idempotent_size :
    (∀ calls : List UpdateCall,
      (applyUpdates LinkGraph.empty calls).len
        = ((calls.map (fun c => c.url)).toFinset).card) ∧
    (∀ (g : LinkGraph) (url p1 p2 : String) (cs1 cs2 : List String)
      (im1 im2 : List Image) (ts1 ts2 : List String) (g1 g2 : LinkGraph),
      WfGraph g →
      g.update url p1 cs1 im1 ts1 = .ok g1 →
      g1.update url p2 cs2 im2 ts2 = .ok g2 →
      (idOfUrl g1 url).isSome = true ∧ idOfUrl g2 url = idOfUrl g1 url) := by
  constructor
  · intro calls
    obtain ⟨hwf2, hkeys⟩ := applyUpdates_wf calls LinkGraph.empty wf_empty
    rw [wf_len hwf2, hkeys]
    simp [LinkGraph.empty, akeys]
  · intro g url p1 p2 cs1 cs2 im1 im2 ts1 ts2 g1 g2 hwf h1 h2
    obtain ⟨g1', hok1, hwf1, hli1, _⟩ := update_wf url p1 cs1 im1 ts1 hwf
    rw [h1] at hok1
    injection hok1 with he1
    subst he1
    have hreg : (idOfUrl g1 url).isSome = true := by
      rw [idOfUrl, hli1]
      by_cases hca : (alookup g.linkIds url).isSome = true
      · rw [if_pos hca]
        exact hca
      · have hnone : alookup g.linkIds url = none := by
          cases h3 : alookup g.linkIds url with
          | none => rfl
          | some v => rw [h3] at hca; simp at hca
        rw [if_neg hca, alookup_append]
        simp [hnone, alookup]
    obtain ⟨g2', hok2, hwf2', hli2, _⟩ := update_wf url p2 cs2 im2 ts2 hwf1
    rw [h2] at hok2
    injection hok2 with he2
    subst he2
    refine ⟨hreg, ?_⟩
    have hreg2 : (alookup g1.linkIds url).isSome = true := hreg
    show alookup g2.linkIds url = alookup g1.linkIds url
    rw [hli2, if_pos hreg2]

/-- Witness for `registration_idempotent_size`: two identical updates from
the empty graph give a one-link graph and the same id both times. -/
theorem registration_idempotent_size_witness :
    (applyUpdates LinkGraph.empty
      [⟨"u", "", [], [], []⟩, ⟨"u", "", [], [], []⟩]).len = 1 ∧
    idOfUrl c1graph2 "u" = idOfUrl c1graph1 "u" :=
  ⟨(registration_idempotent_size.1
      [⟨"u", "", [], [], []⟩, ⟨"u", "", [], [], []⟩]).trans (by decide),
   (registration_idempotent_size.2 LinkGraph.empty "u" "" "" [] [] [cImg] [cImg]
      [] [] c1graph1 c1graph2 wf_empty rfl rfl).2⟩

theorem childrenOfUrl_eq {g2 : LinkGraph} {url : String} {key : Nat} {lk : Link}
    (h1 : alookup g2.linkIds url = some key) (h2 : alookup g2.links key = some lk) :
    childrenOfUrl g2 url = lk.children := by
  simp [childrenOfUrl, linkOfUrl, h1, h2]

theorem parentsOfUrl_eq {g2 : LinkGraph} {url : String} {key : Nat} {lk : Link}
    (h1 : alookup g2.linkIds url = some key) (h2 : alookup g2.links key = some lk) :
    parentsOfUrl g2 url = lk.parents := by
  simp [parentsOfUrl, linkOfUrl, h1, h2]

theorem childrenOfId_eq {g2 : LinkGraph} {i : Nat} {lk : Link}
    (h2 : alookup g2.links i = some lk) :
    childrenOfId g2 i = lk.children := by
  simp [childrenOfId, h2]

/-- C5: `update` records edges only between already-registered endpoints:
the Link's children set gains exactly the ids of the `child_urls` entries
registered at the time of the call (unregistered children are dropped), and
if `parent_url` is registered the edge is recorded symmetrically — the
Link's parents set gains the parent's id and the parent's children set
gains this Link's id — while an unregistered `parent_url` records no parent
edge. -/
theorem update_edges_registered_only (g : LinkGraph) (url parent : String)
    (cs : List String) (imgs : List Image) (ts : List String) (g' : LinkGraph)
    (hwf : WfGraph g) (h : g.update url parent cs imgs ts = .ok g') :
    ∃ tid, idOfUrl g' url = some tid ∧
      childrenOfUrl g' url = (childrenOfUrl g url
          ∪ (cs.filterMap (fun c => alookup g.linkIds c)).toFinset)
        ∪ (if alookup g.linkIds parent = some tid then {tid} else ∅) ∧
      (match alookup g.linkIds parent with
       | some pid =>
           parentsOfUrl g' url = insert pid (parentsOfUrl g url) ∧
           tid ∈ childrenOfId g' pid ∧
           (pid ≠ tid → childrenOfId g' pid = insert tid (childrenOfId g pid))
       | none => parentsOfUrl g' url = parentsOfUrl g url) := by
  obtain ⟨w1, w2, w3, w4, w5⟩ := hwf
  obtain ⟨g1, key, link2, hfg, hlk, hcases⟩ := update_ok_cases h
  have hmain : ∃ old : Link, alookup g1.links key = some old ∧
      old.id = key ∧
      old.children = childrenOfUrl g url ∧
      old.parents = parentsOfUrl g url ∧
      g1.linkIds = ainsert g.linkIds url key ∧
      (∀ k2, k2 ≠ key → alookup g1.links k2 = alookup g.links k2) := by
    rcases forceGetLinkId_ok hfg with
      ⟨hmem, hl, hli, hn, hsome⟩ | ⟨hnone, hkey, hcol, hl, hli, hn⟩
    · obtain ⟨old, hold⟩ := Option.isSome_iff_exists.mp hsome
      refine ⟨old, by rw [hl]; exact hold, w5 _ (alookup_mem hold), ?_, ?_, hli,
        fun k2 _ => by rw [hl]⟩
      · exact (childrenOfUrl_eq hmem hold).symm
      · exact (parentsOfUrl_eq hmem hold).symm
    · subst hkey
      refine ⟨Link.mkNew g.nextId url, ?_, rfl, ?_, ?_, hli, ?_⟩
      · rw [hl, alookup_append]
        simp [hcol, alookup]
      · simp [childrenOfUrl, linkOfUrl, hnone, Link.mkNew]
      · simp [parentsOfUrl, linkOfUrl, hnone, Link.mkNew]
      · intro k2 hk2
        rw [hl, alookup_append]
        cases h2 : alookup g.links k2 with
        | some v => rfl
        | none =>
          simp only [alookup, if_neg (fun he : g.nextId = k2 => hk2 he.symm)]
  obtain ⟨old, holdlk, holdid, holdch, holdpa, hgl, hother⟩ := hmain
  have hlink2 : link2 = updMut g parent cs imgs ts old := by
    rw [alookup_amodify, if_pos rfl, holdlk] at hlk
    injection hlk with h2
    exact h2.symm
  have hl2id : link2.id = key := by
    rw [hlink2, updMut_id, holdid]
  have hids : g'.linkIds = g1.linkIds := by
    rcases hcases with ⟨_, hg'⟩ | ⟨pid, _, _, hg'⟩ <;> rw [hg']
  have hurl : alookup g'.linkIds url = some key := by
    rw [hids, hgl]
    exact alookup_ainsert_self _ _ _
  refine ⟨key, hurl, ?_, ?_⟩
  · -- children equation
    rcases hcases with ⟨hpn, hg'⟩ | ⟨pid, hps, hplsome, hg'⟩
    · have hlks : alookup g'.links key
          = some (updMut g parent cs imgs ts old) := by
        rw [hg']
        show alookup (amodify g1.links key (updMut g parent cs imgs ts)) key = _
        rw [alookup_amodify, if_pos rfl, holdlk]
        rfl
      rw [childrenOfUrl_eq hurl hlks, updMut_children, holdch, hpn]
      simp
    · by_cases hpk : pid = key
      · subst hpk
        have hlks : alookup g'.links pid
            = some (parentMut link2.id (updMut g parent cs imgs ts old)) := by
          rw [hg']
          show alookup (amodify (amodify g1.links pid
            (updMut g parent cs imgs ts)) pid (parentMut link2.id)) pid = _
          rw [alookup_amodify, if_pos rfl, alookup_amodify, if_pos rfl, holdlk]
          rfl
        rw [childrenOfUrl_eq hurl hlks, parentMut_children, updMut_children,
          holdch, hl2id, hps, if_pos rfl]
        ext a
        simp only [Finset.mem_insert, Finset.mem_union, Finset.mem_singleton]
        tauto
      · have hlks : alookup g'.links key
            = some (updMut g parent cs imgs ts old) := by
          rw [hg']
          show alookup (amodify (amodify g1.links key
            (updMut g parent cs imgs ts)) pid (parentMut link2.id)) key = _
          rw [alookup_amodify, if_neg (fun he : key = pid => hpk he.symm),
            alookup_amodify, if_pos rfl, holdlk]
          rfl
        rw [childrenOfUrl_eq hurl hlks, updMut_children, holdch]
        have hcond : ¬ alookup g.linkIds parent = some key := by
          rw [hps]
          exact fun he => hpk (Option.some.inj he)
        rw [if_neg hcond]
        simp
  · -- parent side
    rcases hcases with ⟨hpn, hg'⟩ | ⟨pid, hps, hplsome, hg'⟩
    · rw [hpn]
      show parentsOfUrl g' url = parentsOfUrl g url
      have hlks : alookup g'.links key
          = some (updMut g parent cs imgs ts old) := by
        rw [hg']
        show alookup (amodify g1.links key (updMut g parent cs imgs ts)) key = _
        rw [alookup_amodify, if_pos rfl, holdlk]
        rfl
      rw [parentsOfUrl_eq hurl hlks, updMut_parents, hpn, holdpa]
    · rw [hps]
      obtain ⟨pl2, hpl2⟩ := Option.isSome_iff_exists.mp hplsome
      show parentsOfUrl g' url = insert pid (parentsOfUrl g url) ∧
        key ∈ childrenOfId g' pid ∧
        (pid ≠ key → childrenOfId g' pid = insert key (childrenOfId g pid))
      have hlkp : alookup g'.links pid = some (parentMut link2.id pl2) := by
        rw [hg']
        show alookup (amodify (amodify g1.links key
          (updMut g parent cs imgs ts)) pid (parentMut link2.id)) pid = _
        rw [alookup_amodify, if_pos rfl, hpl2]
        rfl
      refine ⟨?_, ?_, ?_⟩
      · by_cases hpk : pid = key
        · subst hpk
          have hpl2v : pl2 = updMut g parent cs imgs ts old := by
            rw [alookup_amodify, if_pos rfl, holdlk] at hpl2
            injection hpl2 with h2
            exact h2.symm
          rw [parentsOfUrl_eq hurl hlkp, parentMut_parents, hpl2v,
            updMut_parents, hps, holdpa]
        · have hlks : alookup g'.links key
              = some (updMut g parent cs imgs ts old) := by
            rw [hg']
            show alookup (amodify (amodify g1.links key
              (updMut g parent cs imgs ts)) pid (parentMut link2.id)) key = _
            rw [alookup_amodify, if_neg (fun he : key = pid => hpk he.symm),
              alookup_amodify, if_pos rfl, holdlk]
            rfl
          rw [parentsOfUrl_eq hurl hlks, updMut_parents, hps, holdpa]
      · rw [childrenOfId_eq hlkp, parentMut_children, hl2id]
        exact Finset.mem_insert_self _ _
      · intro hpk
        have hpl2g : alookup g.links pid = some pl2 := by
          rw [alookup_amodify, if_neg hpk] at hpl2
          rw [← hother pid hpk]
          exact hpl2
        rw [childrenOfId_eq hlkp, childrenOfId_eq hpl2g, parentMut_children,
          hl2id]

/-- Witness for `update_edges_registered_only`: updating "u" with parent "p"
and children ["c1", "c2"] in a graph where "p" and "c1" are registered
records the child edge to "c1" only, and the symmetric parent edge. -/
theorem update_edges_registered_only_witness :
    WfGraph c5g ∧
    childrenOfUrl c5g2 "u" = {1} ∧
    parentsOfUrl c5g2 "u" = {0} ∧
    (2 : Nat) ∈ childrenOfId c5g2 0 := by
  have hwf : WfGraph c5g := by
    unfold WfGraph
    decide
  obtain ⟨tid, h1, h2, h3⟩ :=
    update_edges_registered_only c5g "u" "p" ["c1", "c2"] [] [] c5g2 hwf rfl
  have htid : tid = 2 := by
    have he : idOfUrl c5g2 "u" = some 2 := by decide
    rw [h1] at he
    exact Option.some.inj he
  subst htid
  have hps : alookup c5g.linkIds "p" = some 0 := by decide
  rw [hps] at h3
  refine ⟨hwf, ?_, h3.1.trans (by decide), h3.2.1⟩
  rw [h2]
  decide

theorem countPassed_cons (w : WState) (rest : List WState) :
    countPassed (w :: rest) = countPassed rest + countPassedOne w := by
  cases w <;> simp [countPassed, countPassedOne]

theorem countPassed_set (ws : List WState) (i : Nat) (w v : WState)
    (h : ws[i]? = some w) :
    countPassed (ws.set i v) + countPassedOne w
      = countPassed ws + countPassedOne v := by
  induction ws generalizing i with
  | nil => simp at h
  | cons x rest ih =>
    cases i with
    | zero =>
      simp only [List.getElem?_cons_zero, Option.some.injEq] at h
      subst h
      rw [List.set_cons_zero, countPassed_cons, countPassed_cons]
      omega
    | succ m =>
      simp only [List.getElem?_cons_succ] at h
      rw [List.set_cons_succ, countPassed_cons, countPassed_cons]
      have := ih m h
      omega

theorem countPassed_le_length (ws : List WState) : countPassed ws ≤ ws.length := by
  induction ws with
  | nil => simp [countPassed]
  | cons x rest ih =>
    rw [countPassed_cons]
    cases x <;> simp [countPassedOne] <;> omega

theorem countPassed_top_lt {ws : List WState} {i : Nat}
    (h : ws[i]? = some .wtop) : countPassed ws + 1 ≤ ws.length := by
  have h1 := countPassed_set ws i .wtop .wpassed h
  simp only [countPassedOne] at h1
  have h2 := countPassed_le_length (ws.set i .wpassed)
  rw [List.length_set] at h2
  omega

theorem countPassed_replicate_top (n : Nat) :
    countPassed (List.replicate n .wtop) = 0 := by
  induction n with
  | zero => rfl
  | succ m ih => simp [List.replicate, countPassed, ih]

theorem poolStep_invariant {maxLinks : Nat} {s t : PoolState}
    (hstep : PoolStep maxLinks s t)
    (hinv : s.counter + countPassed s.workers + 1 ≤ maxLinks + s.workers.length) :
    t.counter + countPassed t.workers + 1 ≤ maxLinks + t.workers.length ∧
    t.workers.length = s.workers.length := by
  cases hstep with
  | checkPass i h hc =>
    have hset := countPassed_set s.workers i .wtop .wpassed h
    simp only [countPassedOne] at hset
    have htop := countPassed_top_lt h
    refine ⟨?_, by simp [List.length_set]⟩
    simp only [List.length_set]
    omega
  | checkFail i h hc =>
    have hset := countPassed_set s.workers i .wtop .wstopped h
    simp only [countPassedOne] at hset
    refine ⟨?_, by simp [List.length_set]⟩
    simp only [List.length_set]
    omega
  | exitStarved i h =>
    have hset := countPassed_set s.workers i .wtop .wstopped h
    simp only [countPassedOne] at hset
    refine ⟨?_, by simp [List.length_set]⟩
    simp only [List.length_set]
    omega
  | skipIter i h => exact ⟨hinv, rfl⟩
  | fetchInc i h =>
    have hset := countPassed_set s.workers i .wpassed .wtop h
    simp only [countPassedOne] at hset
    refine ⟨?_, by simp [List.length_set]⟩
    simp only [List.length_set]
    omega

theorem poolReach_invariant {maxLinks n : Nat} {s : PoolState} (hn : 1 ≤ n)
    (hs : PoolReach maxLinks n s) :
    s.counter + countPassed s.workers + 1 ≤ maxLinks + n ∧
    s.workers.length = n := by
  induction hs with
  | refl =>
    constructor
    · simp only [initPool, countPassed_replicate_top]
      omega
    · simp [initPool]
  | step hsteps hstep ih =>
    obtain ⟨hinv, hlen⟩ := ih
    obtain ⟨h1, h2⟩ := poolStep_invariant hstep (by rw [hlen]; exact hinv)
    refine ⟨?_, h2.trans hlen⟩
    rw [h2, hlen] at h1
    exact h1

theorem poolStep_after_budget {maxLinks : Nat} {s t : PoolState}
    (hstep : PoolStep maxLinks s t) (hc : maxLinks ≤ s.counter) :
    maxLinks ≤ t.counter ∧
    t.fetches + countPassed t.workers ≤ s.fetches + countPassed s.workers := by
  cases hstep with
  | checkPass i h hcc => omega
  | checkFail i h hcc =>
    have hset := countPassed_set s.workers i .wtop .wstopped h
    simp only [countPassedOne] at hset
    exact ⟨hc, by simp only; omega⟩
  | exitStarved i h =>
    have hset := countPassed_set s.workers i .wtop .wstopped h
    simp only [countPassedOne] at hset
    exact ⟨hc, by simp only; omega⟩
  | skipIter i h => exact ⟨hc, Nat.le_refl _⟩
  | fetchInc i h =>
    have hset := countPassed_set s.workers i .wpassed .wtop h
    simp only [countPassedOne] at hset
    exact ⟨by simp only; omega, by simp only; omega⟩

theorem poolSteps_after_budget {maxLinks : Nat} {s t : PoolState}
    (hst : PoolSteps maxLinks s t) (hc : maxLinks ≤ s.counter) :
    maxLinks ≤ t.counter ∧
    t.fetches + countPassed t.workers ≤ s.fetches + countPassed s.workers := by
  induction hst with
  | refl => exact ⟨hc, Nat.le_refl _⟩
  | step hsteps hstep ih =>
    obtain ⟨h1, h2⟩ := ih
    obtain ⟨h3, h4⟩ := poolStep_after_budget hstep h1
    exact ⟨h3, h4.trans h2⟩

/-- C3: in every interleaved execution of `n` workers sharing the atomic
visited counter (each worker's budget load and its `fetch_add` being
separate atomic steps), every reachable state has counter at most
max_links + (n − 1); and from any reachable state in which the counter has
reached max_links, at most (n − 1) further page fetches ever occur — only
the workers already past their budget check fetch, and no worker passes a
new budget check. -/
theorem visited_overshoot_bounded (n maxLinks : Nat) (s : PoolState)
    (hn : 1 ≤ n) (hs : PoolReach maxLinks n s) :
    s.counter ≤ maxLinks + (n - 1) ∧
    (maxLinks ≤ s.counter → ∀ t, PoolSteps maxLinks s t →
      t.fetches ≤ s.fetches + (n - 1)) := by
  obtain ⟨hinv, hlen⟩ := poolReach_invariant hn hs
  constructor
  · omega
  · intro hc t hst
    obtain ⟨h1, h2⟩ := poolSteps_after_budget hst hc
    omega

/-- Witness for `visited_overshoot_bounded` at the initial state of a
two-worker pool with budget 1. -/
theorem visited_overshoot_bounded_witness :
    (1 : Nat) ≤ 2 ∧ (initPool 2).counter ≤ 1 + (2 - 1) :=
  ⟨by decide,
    (visited_overshoot_bounded 2 1 (initPool 2) (by decide)
      (PoolSteps.refl _)).1⟩

end HyperCrawl
